import Mathlib

/-!
# Verification of the model registry and inference core

Shallow embedding of `backend/app/services/registry.py` and
`backend/app/services/predictor.py`, together with proofs of the
specification's claims about versioning, lineage resolution, deletion,
reconciliation, feature alignment and confidence labeling.

The registry's in-memory mapping (a Python `dict` keyed by model id,
preserving insertion order) is embedded as a `List ModelMeta` in insertion
order; dict-key uniqueness is carried as a `Nodup` hypothesis where it
matters.  Timestamps are embedded as naturals, probabilities as rationals.
External effects (uuid generation, the wall clock, the artifact write, and
`joblib` deserialization/inspection of the artifact object) are passed to
the embedded operations as explicit inputs.
-/

namespace PlexeCore

/-- `schemas/model_meta.py`: `ModelStatus`. -/
inductive ModelStatus where
  | uploaded
  | deployed
  | error
deriving DecidableEq, Repr

/-- `schemas/model_meta.py`: `ModelType`. -/
inductive ModelType where
  | classifier
  | regressor
deriving DecidableEq, Repr

/-- The `model_info` diagnostic bag: either the inspection dict
`{"model_class", "has_predict_proba", "n_features"}` written on successful
deserialization, or `{"error": msg}` written when inspection raised
(`registry.py` lines 228-238). -/
inductive ModelInfoVal where
  | info (model_class : String) (has_predict_proba : Bool) (n_features : Option Nat)
  | errorInfo (msg : String)
deriving DecidableEq, Repr

/-- `schemas/model_meta.py`: `ModelMeta`, one version of one named model. -/
structure ModelMeta where
  id : String
  name : String
  description : Option String := none
  model_type : Option ModelType := none
  status : ModelStatus := .uploaded
  file_path : Option String := none
  feature_names : Option (List String) := none
  model_info : Option ModelInfoVal := none
  created_at : Nat := 0
  updated_at : Nat := 0
  version : Nat := 1
  parent_model_id : Option String := none
  is_latest : Bool := true
deriving DecidableEq, Repr

/-- `schemas/model_meta.py`: `ModelMetaCreate`, the caller-supplied upload
metadata. -/
structure ModelMetaCreate where
  name : String
  description : Option String := none
  is_new_version : Bool := false
  parent_model_id : Option String := none
deriving DecidableEq, Repr

/-- The registry's `self.models` dict, in insertion order. -/
abbrev Registry := List ModelMeta

/-- `registry.py` line 252-254: `get_model`, a dict lookup by id. -/
def get_model (s : Registry) (model_id : String) : Option ModelMeta :=
  s.find? (fun r => r.id == model_id)

/-- The ids present in a registry. -/
def regIds (s : Registry) : List String := s.map (fun r => r.id)

/-- `registry.py` lines 105-109: the root-finding `while` loop of
`_get_model_family`, with explicit fuel.  One unit of fuel is one loop
iteration; the Python loop is unbounded, so exhausting every fuel value
(`none` for all fuel) is exactly the loop running forever.
`rootId` and `target` are the loop variables `root_model_id` and
`target_model`. -/
def findRootAux (s : Registry) (fuel : Nat) (rootId : String)
    (target : Option ModelMeta) : Option String :=
  match target with
  | none => some rootId
  | some t =>
    match t.parent_model_id with
    | none => some rootId
    | some p =>
      match fuel with
      | 0 => none
      | Nat.succ f => findRootAux s f p (get_model s p)

/-- The root-finding walk of `_get_model_family`, started the way the source
starts it (`target_model = self.get_model(model_id)`), with the given fuel. -/
def findRoot (s : Registry) (fuel : Nat) (model_id : String) : Option String :=
  findRootAux s fuel model_id (get_model s model_id)

/-- The Python root-finding loop terminates on this registry and id. -/
def walkTerminates (s : Registry) (model_id : String) : Prop :=
  ∃ fuel, findRoot s fuel model_id ≠ none

/-- `registry.py` lines 123-130: the `while` loop of `_is_descendant`, with
explicit fuel (`none` = the loop is still running after `fuel` iterations). -/
def isDescAux (s : Registry) (fuel : Nat) (model : Option ModelMeta)
    (ancestor_id : String) : Option Bool :=
  match model with
  | none => some false
  | some m =>
    match m.parent_model_id with
    | none => some false
    | some p =>
      if p == ancestor_id then some true
      else
        match fuel with
        | 0 => none
        | Nat.succ f => isDescAux s f (get_model s p) ancestor_id

/-- `registry.py` lines 123-130: `_is_descendant(model_id, ancestor_id)`. -/
def _is_descendant (s : Registry) (fuel : Nat) (model_id ancestor_id : String) :
    Option Bool :=
  isDescAux s fuel (get_model s model_id) ancestor_id

/-- `registry.py` lines 112-119: the collection loop of `_get_model_family`:
keep each record whose id is the root, whose parent is the root, or which is
a descendant of the root (the `or` short-circuits, so the descendant walk
only runs when the first two tests fail). -/
def collectFamily (s : Registry) (fuel : Nat) (rootId : String) :
    List ModelMeta → Option (List ModelMeta)
  | [] => some []
  | m :: rest =>
    if m.id == rootId || m.parent_model_id == some rootId then
      (collectFamily s fuel rootId rest).map (fun l => m :: l)
    else
      match _is_descendant s fuel m.id rootId with
      | none => none
      | some true => (collectFamily s fuel rootId rest).map (fun l => m :: l)
      | some false => collectFamily s fuel rootId rest

/-- `registry.py` lines 99-121: `_get_model_family`.  Returns `none` when one
of the unbounded walks fails to finish within `fuel` iterations (the Python
code would still be looping). -/
def _get_model_family (s : Registry) (fuel : Nat) (model_id : String) :
    Option (List ModelMeta) :=
  match get_model s model_id with
  | none => some []
  | some _ =>
    match findRoot s fuel model_id with
    | none => none
    | some rootId => collectFamily s fuel rootId s

/-- Python's `max(models, key=lambda m: m.version)`: the first element with
the maximal version (replacement only on a strictly greater key). -/
def maxByVersion : List ModelMeta → Option ModelMeta
  | [] => none
  | x :: xs => some (xs.foldl (fun acc m => if m.version > acc.version then m else acc) x)

/-- Python's `max(m.version for m in family)` as used on a non-empty family. -/
def maxVersion (family : List ModelMeta) : Nat :=
  family.foldl (fun a m => Nat.max a m.version) 0

/-- Outcome of the version/lineage resolution phase of `save_model`
(`registry.py` lines 138-179): an exception (`raise`), a diverging family
walk (`hang`, only possible on a corrupt cyclic registry), or the mutated
registry together with the version and parent chosen for the new record. -/
inductive ResolveResult where
  | raiseErr (msg : String)
  | hang
  | ok (s1 : Registry) (version : Nat) (parent_model_id : Option String)
deriving DecidableEq, Repr

/-- `registry.py` lines 159-162: the loop body flipping `is_latest` (and
touching `updated_at`) on the currently-latest family members, applied to
one registry record (`famIds` are the ids of the resolved family). -/
def flipLatest (famIds : List String) (now : Nat) (r : ModelMeta) : ModelMeta :=
  if famIds.contains r.id && r.is_latest then
    { r with is_latest := false, updated_at := now }
  else r

/-- `registry.py` lines 176-179: the same flip loop of the name-resolved
branch, which runs over the records sharing the requested name. -/
def flipLatestNamed (name : String) (now : Nat) (r : ModelMeta) : ModelMeta :=
  if r.name == name && r.is_latest then
    { r with is_latest := false, updated_at := now }
  else r

/-- `registry.py` lines 164-179: the name-resolved fallback branch of the
versioning logic, taken when a new version is requested with a falsy parent
id: find the same-named records, treat their highest version as the implicit
parent, and flip `is_latest` on the same-named latest members. -/
def resolveVersionByName (s : Registry) (meta : ModelMetaCreate) (now : Nat) :
    ResolveResult :=
  let existing := s.filter (fun m => m.name == meta.name)
  match maxByVersion existing with
  | none => .ok s 1 none
  | some latest =>
    .ok (s.map (flipLatestNamed meta.name now)) (latest.version + 1)
      (some latest.id)

/-- `registry.py` lines 138-179: the versioning logic of `save_model`.
Python selects the branch by the TRUTHINESS of `metadata.parent_model_id`
(`if metadata.is_new_version and metadata.parent_model_id:`): both `None`
and the empty string are falsy, so an empty-string parent id takes the
name-resolved fallback, not the explicit-parent branch.  The family walk is
run with fuel `s.length`: one iteration per record, which suffices on every
acyclic registry (proved below).  The `is_latest := false` flips mutate the
shared record objects held in `self.models`, embedded here as an
id-preserving map over the registry. -/
def resolveVersion (s : Registry) (meta : ModelMetaCreate) (now : Nat) :
    ResolveResult :=
  match meta.is_new_version, meta.parent_model_id with
  | true, some pid =>
    if pid = "" then resolveVersionByName s meta now
    else
      match get_model s pid with
      | none => .raiseErr ("Parent model " ++ pid ++ " not found")
      | some _ =>
        match _get_model_family s s.length pid with
        | none => .hang
        | some family =>
          let version := if family.isEmpty then 2 else maxVersion family + 1
          let famIds := family.map (fun m => m.id)
          .ok (s.map (flipLatest famIds now)) version (some pid)
  | true, none => resolveVersionByName s meta now
  | false, _ => .ok s 1 none

/-- Result of `joblib.load` plus attribute probing of the artifact object
(`registry.py` lines 206-232): the deserialized object's class name, whether
it exposes `predict_proba`, the feature names obtained from
`feature_names_in_` / the booster (or `none`), and `n_features_in_`. -/
structure LoadedInfo where
  model_class : String
  has_predict_proba : Bool
  feature_names : Option (List String) := none
  n_features : Option Nat := none
deriving DecidableEq, Repr

/-- Outcome of `save_model`: the returned id, or a raised exception; in both
cases the registry state left behind (Python mutates `self.models` in place,
so mutations made before a raise survive it).  `hang` marks the diverging
family walk on a corrupt cyclic registry. -/
inductive SaveResult where
  | ok (s : Registry) (model_id : String)
  | raiseErr (s : Registry) (msg : String)
  | hang
deriving DecidableEq, Repr

/-- `registry.py` lines 132-250: `save_model`.  External inputs: `newId` is
the generated uuid, `now` the clock, `writeOk` whether the artifact write to
disk succeeds, `loadResult` the outcome of deserializing and inspecting the
written artifact.  On a successful write the record is created with status
`uploaded`, then inspection either deploys it (capturing model type, feature
names and the info bag) or, on any exception, stores status `error` with the
failure text in `model_info`; either way the record is added and the id
returned.  On a failed write the partially written file is removed and the
exception re-raised: no record is added, but flips already made by
`resolveVersion` remain. -/
def save_model (s : Registry) (newId : String) (now : Nat)
    (meta : ModelMetaCreate) (writeOk : Bool)
    (loadResult : Except String LoadedInfo) : SaveResult :=
  match resolveVersion s meta now with
  | .raiseErr msg => .raiseErr s msg
  | .hang => .hang
  | .ok s1 version parent =>
    if writeOk then
      let base : ModelMeta :=
        { id := newId, name := meta.name, description := meta.description,
          model_type := none, status := .uploaded,
          file_path := some newId, feature_names := none, model_info := none,
          created_at := now, updated_at := now,
          version := version, parent_model_id := parent, is_latest := true }
      let newRec : ModelMeta :=
        match loadResult with
        | .ok info =>
          { base with
            model_type :=
              some (if info.has_predict_proba then .classifier else .regressor),
            feature_names := info.feature_names,
            model_info :=
              some (.info info.model_class info.has_predict_proba info.n_features),
            status := .deployed }
        | .error e =>
          { base with status := .error, model_info := some (.errorInfo e) }
      .ok (s1 ++ [newRec]) newId
    else
      .raiseErr s1 "artifact write failed"

/-- `registry.py` lines 186-189 and 246-249: the artifact write and its
exception handler, acting on the set of artifact files on disk.  A failed
write may leave a partially written file at `path`; the handler unlinks it,
so the net effect of a failure is that `path` is not on disk. -/
def writeArtifactAttempt (files : List String) (path : String) (ok : Bool) :
    List String :=
  if ok then files ++ [path]
  else (files ++ [path]).filter (fun q => q != path)

/-- `registry.py` lines 296-315: `delete_model`.  Returns the new registry
and the boolean result.  The record's file and cache entry are removed and
the record deleted from the dict; no other record is touched. -/
def delete_model (s : Registry) (model_id : String) : Registry × Bool :=
  if (get_model s model_id).isSome then
    (s.filter (fun r => r.id != model_id), true)
  else
    (s, false)

/-! ## Reconciliation (`_migrate_existing_models`) -/

/-- Stable insertion of a record into a list already sorted by `created_at`
ascending: the record goes before the first element with an equal-or-later
timestamp.  In the `foldr` of `sortByCreatedAt` the inserted record always
precedes the already-inserted records, which came later in the original
list, so equal-timestamp records keep their original relative order:
`sortByCreatedAt` is the stable ascending sort that Python's
`list.sort(key=lambda m: m.created_at)` (`registry.py` line 63) performs. -/
def insertByCreatedAt (m : ModelMeta) : List ModelMeta → List ModelMeta
  | [] => [m]
  | x :: xs =>
    if m.created_at ≤ x.created_at then m :: x :: xs
    else x :: insertByCreatedAt m xs

/-- Stable sort by `created_at` ascending (`registry.py` line 63). -/
def sortByCreatedAt (l : List ModelMeta) : List ModelMeta :=
  l.foldr insertByCreatedAt []

/-- `registry.py` lines 48-84, per record: the new value of a record `r` of
registry `s` after the reconciliation pass.  Its name group (in registry
order) is `s.filter (name = r.name)`; a group with more than one member is
sorted chronologically and each member gets `version = index + 1` with
`is_latest` true exactly on the last; a singleton group only forces
`is_latest := true`. -/
def migrateRecord (s : Registry) (r : ModelMeta) : ModelMeta :=
  let group := s.filter (fun m => m.name == r.name)
  if group.length > 1 then
    let sorted := sortByCreatedAt group
    match sorted.findIdx? (fun m => m.id == r.id) with
    | some i => { r with version := i + 1, is_latest := i + 1 == sorted.length }
    | none => r
  else
    { r with is_latest := true }

/-- `registry.py` lines 48-84: `_migrate_existing_models` (the `reconcile()`
pass).  Python writes each fixed record back under its existing dict key, so
the mapping's insertion order is unchanged and every record is replaced by
its fixed value. -/
def _migrate_existing_models (s : Registry) : Registry :=
  s.map (migrateRecord s)

/-! ## Inference (`predictor.py`) -/

/-- A Python value as it appears in a prediction request or response.
`null` stands for Python `None` (and for the `NaN` that pandas inserts for
a column absent from the input row): the values `pd.isnull` reports as
missing. -/
inductive PyVal where
  | null
  | int (n : Int)
  | num (q : ℚ)
  | str (st : String)
deriving DecidableEq, Repr

/-- `predictor.py` lines 14-39: `_prepare_features`, given the record's
`feature_names` and the caller's input dict (an association list in key
order, keys unique).  With a non-empty `feature_names`, pandas aligns the
single row to the declared columns in declared order, with a column `NaN`
when the name is not a key of the input (or its value is `None`); the
null-columns check then fails with the full list of null columns.  With no
declared names (Python falsiness: `None` or `[]`), the dict's values are
used in their given order. -/
def _prepare_features (feature_names : Option (List String))
    (features : List (String × PyVal)) : Except (List String) (List PyVal) :=
  match feature_names with
  | some names =>
    if names.isEmpty then
      .ok (features.map (fun kv => kv.2))
    else
      let aligned := names.map (fun n => (features.lookup n).getD PyVal.null)
      let missing := names.filter (fun n =>
        (features.lookup n).getD PyVal.null == PyVal.null)
      if missing.isEmpty then .ok aligned else .error missing
  | none => .ok (features.map (fun kv => kv.2))

/-- `predictor.py` lines 41-48: `_get_confidence_level`. -/
def _get_confidence_level (probability : ℚ) : String :=
  if probability ≥ 0.8 then "High"
  else if probability ≥ 0.6 then "Medium"
  else "Low"

/-- The deserialized artifact object as the predictor uses it: its
single-row `predict`, and its `predict_proba` when the attribute exists
(`hasattr(model, "predict_proba")` is `predict_proba.isSome`). -/
structure LoadedModel where
  predictFn : List PyVal → PyVal
  predict_proba : Option (List PyVal → List ℚ)

/-- `schemas/prediction.py`: `PredictionResponse` (the `model_id` echo is
omitted). -/
structure PredictionResponse where
  prediction : PyVal
  probability : Option ℚ
  confidence : Option String
deriving DecidableEq

/-- Python's `max` over a list of rationals (`None` on an empty list, where
Python raises). -/
def maxQ : List ℚ → Option ℚ
  | [] => none
  | x :: xs => some (xs.foldl (fun a b => if b > a then b else a) x)

/-- Python list indexing `proba[prediction]` for an `int` prediction:
negative indices wrap from the end; out of range raises. -/
def pyIndex (l : List ℚ) (n : Int) : Option ℚ :=
  if n ≥ 0 then l.get? n.toNat
  else
    let m : Int := Int.ofNat l.length + n
    if m ≥ 0 then l.get? m.toNat else none

/-- `predictor.py` lines 62-76: the probability taken from
`predict_proba(X)[0]`: the max of the two class probabilities for a binary
output, else the probability of the predicted class when the predicted
label is an `int` (raising on a bad index), else the max. -/
def probaOf (proba : List ℚ) (prediction : PyVal) : Except String ℚ :=
  if proba.length == 2 then
    match maxQ proba with
    | some p => .ok p
    | none => .error "max() arg is an empty sequence"
  else
    match prediction with
    | .int n =>
      match pyIndex proba n with
      | some p => .ok p
      | none => .error "index out of range"
    | _ =>
      match maxQ proba with
      | some p => .ok p
      | none => .error "max() arg is an empty sequence"

/-- `predictor.py` lines 50-90: `predict` for one input row, after the model
has been loaded from the cache.  Any failure is folded by the outer handler
into a raised `Prediction failed` error. -/
def predictOne (feature_names : Option (List String)) (model : LoadedModel)
    (features : List (String × PyVal)) : Except String PredictionResponse :=
  match _prepare_features feature_names features with
  | .error missing =>
    .error ("Prediction failed: Missing required features: " ++ toString missing)
  | .ok X =>
    let prediction := model.predictFn X
    match model.predict_proba with
    | none =>
      .ok { prediction := prediction, probability := none, confidence := none }
    | some pp =>
      match probaOf (pp X) prediction with
      | .error e => .error ("Prediction failed: " ++ e)
      | .ok p =>
        .ok { prediction := prediction, probability := some p,
              confidence := some (_get_confidence_level p) }

/-! ## Operation sequences

A test harness over the embedded mutations: one `Op` per public call, each
save carrying its externally generated uuid and clock reading. -/

/-- One registry mutation: a `save_model` call (with its generated id, clock
reading, metadata, write outcome and inspection outcome) or a `delete_model`
call. -/
inductive Op where
  | save (newId : String) (now : Nat) (meta : ModelMetaCreate)
         (writeOk : Bool) (loadResult : Except String LoadedInfo)
  | del (model_id : String)

/-- Apply one operation to the registry (a raised save keeps the mutated
state it left behind, as the Python object does). -/
def applyOp (s : Registry) : Op → Registry
  | .save newId now meta writeOk loadResult =>
    match save_model s newId now meta writeOk loadResult with
    | .ok s' _ => s'
    | .raiseErr s' _ => s'
    | .hang => s
  | .del model_id => (delete_model s model_id).1

/-- Run a sequence of operations from the empty registry. -/
def runOps (ops : List Op) : Registry := ops.foldl applyOp []

/-- The uuids generated for the save calls of a sequence. -/
def saveIds : List Op → List String
  | [] => []
  | .save newId _ _ _ _ :: rest => newId :: saveIds rest
  | .del _ :: rest => saveIds rest

/-- A save call in the verified operation class: the artifact write succeeds
and, when a new version is requested, the parent id is supplied explicitly
and is truthy (present and non-empty, so the name-resolved fallback of
`registry.py` lines 164-179 — taken for a `None` or empty-string parent —
is excluded); deletes are excluded. -/
def GoodSaveOp : Op → Prop
  | .save _ _ meta writeOk _ =>
    writeOk = true ∧ (meta.is_new_version = true →
      meta.parent_model_id.isSome ∧ meta.parent_model_id ≠ some "")
  | .del _ => False

/-! ## Structural predicates on registry states -/

/-- Dict-key uniqueness of the embedded mapping. -/
def NodupIds (s : Registry) : Prop := (regIds s).Nodup

/-- Every record whose parent id resolves to a record of the registry has
that record strictly earlier in insertion order.  This holds of every state
reachable through the public API (parents are chosen among existing records
and never change) and excludes parent-link cycles. -/
def ParentsEarlier (s : Registry) : Prop :=
  ∀ j r, s.get? j = some r → ∀ p, r.parent_model_id = some p →
    ∀ i q, s.get? i = some q → q.id = p → i < j

/-- Every parent link resolves: no dangling parent ids (true of states
reachable without deletions). -/
def ParentsPresent (s : Registry) : Prop :=
  ∀ r ∈ s, ∀ p, r.parent_model_id = some p → ∃ q ∈ s, q.id = p

/-- The root the family walk assigns to an id, run with one unit of fuel per
registry record (enough on every acyclic registry, proved below). -/
def rootAtId (s : Registry) (idStr : String) : Option String :=
  findRoot s s.length idStr

/-- The family walk reaches root `a` from `idStr` given enough fuel. -/
def RootReach (s : Registry) (idStr a : String) : Prop :=
  ∃ fuel, findRoot s fuel idStr = some a

/-! ## Lookup lemmas -/

theorem get_model_eq_some (s : Registry) (p : String) (q : ModelMeta)
    (h : get_model s p = some q) : q ∈ s ∧ q.id = p := by
  refine ⟨List.mem_of_find?_eq_some h, ?_⟩
  have := List.find?_some h
  simpa using this

theorem get_model_eq_none (s : Registry) (p : String)
    (h : get_model s p = none) : ∀ r ∈ s, r.id ≠ p := by
  intro r hr
  have := List.find?_eq_none.mp h r hr
  simpa using this

theorem get_model_isSome_of_mem (s : Registry) (r : ModelMeta) (hr : r ∈ s) :
    (get_model s r.id).isSome := by
  rcases h : get_model s r.id with _ | q
  · exact absurd rfl (get_model_eq_none s r.id h r hr)
  · rfl

theorem get_model_mem_self :
    ∀ (s : Registry), NodupIds s → ∀ r ∈ s, get_model s r.id = some r := by
  intro s
  induction s with
  | nil => intro _ r hr; cases hr
  | cons x xs ih =>
    intro hnd r hr
    rcases List.mem_cons.mp hr with hr | hr
    · subst hr
      simp [get_model, List.find?]
    · by_cases hx : x.id = r.id
      · exfalso
        have hmem : r.id ∈ regIds xs := by
          simpa [regIds] using List.mem_map_of_mem (fun m => m.id) hr
        have hnd' : x.id ∉ regIds xs ∧ (regIds xs).Nodup := by
          simpa [NodupIds, regIds] using hnd
        exact hnd'.1 (hx ▸ hmem)
      · have hnd' : (regIds xs).Nodup := by
          have h2 : x.id ∉ regIds xs ∧ (regIds xs).Nodup := by
            simpa [NodupIds, regIds] using hnd
          exact h2.2
        have := ih hnd' r hr
        simpa [get_model, List.find?, beq_eq_false_iff_ne.mpr hx] using this

theorem get_model_eq_some_index (s : Registry) (p : String) (q : ModelMeta)
    (h : get_model s p = some q) : ∃ i, s.get? i = some q := by
  have hm := (get_model_eq_some s p q h).1
  exact List.mem_iff_get?.mp hm

/-! ## Fuel monotonicity and determinism of the root walk -/

theorem findRootAux_mono (s : Registry) :
    ∀ fuel rootId target a, findRootAux s fuel rootId target = some a →
      findRootAux s (fuel + 1) rootId target = some a := by
  intro fuel
  induction fuel with
  | zero =>
    intro rootId target a h
    cases target with
    | none => simpa [findRootAux] using h
    | some t =>
      rcases hp : t.parent_model_id with _ | p
      · simpa [findRootAux, hp] using h
      · simp [findRootAux, hp] at h
  | succ f ih =>
    intro rootId target a h
    cases target with
    | none => simpa [findRootAux] using h
    | some t =>
      rcases hp : t.parent_model_id with _ | p
      · simpa [findRootAux, hp] using h
      · simp only [findRootAux, hp] at h ⊢
        exact ih p (get_model s p) a h

theorem findRootAux_le (s : Registry) (fuel g : Nat) (hle : fuel ≤ g)
    (rootId : String) (target : Option ModelMeta) (a : String)
    (h : findRootAux s fuel rootId target = some a) :
    findRootAux s g rootId target = some a := by
  induction g with
  | zero =>
    have : fuel = 0 := Nat.le_zero.mp hle
    exact this ▸ h
  | succ g ih =>
    rcases Nat.lt_or_ge fuel (g + 1) with hlt | hge
    · exact findRootAux_mono s g rootId target a (ih (Nat.lt_succ_iff.mp hlt))
    · have : fuel = g + 1 := Nat.le_antisymm hle hge
      exact this ▸ h

theorem findRoot_le (s : Registry) (fuel g : Nat) (hle : fuel ≤ g)
    (idStr a : String) (h : findRoot s fuel idStr = some a) :
    findRoot s g idStr = some a :=
  findRootAux_le s fuel g hle idStr (get_model s idStr) a h

theorem rootReach_functional (s : Registry) (idStr a b : String)
    (ha : RootReach s idStr a) (hb : RootReach s idStr b) : a = b := by
  rcases ha with ⟨f, hf⟩
  rcases hb with ⟨g, hg⟩
  have h1 := findRoot_le s f (f + g) (Nat.le_add_right f g) idStr a hf
  have h2 := findRoot_le s g (f + g) (Nat.le_add_left g f) idStr b hg
  rw [h1] at h2
  exact Option.some_injective _ h2

theorem rootAtId_of_rootReach_of_some (s : Registry) (idStr a b : String)
    (h : RootReach s idStr a) (hb : rootAtId s idStr = some b) :
    rootAtId s idStr = some a := by
  have : RootReach s idStr b := ⟨s.length, hb⟩
  rw [hb, rootReach_functional s idStr a b h this]

/-! ## One-step unfoldings of the walk -/

theorem findRoot_of_get_none (s : Registry) (fuel : Nat) (idStr : String)
    (h : get_model s idStr = none) : findRoot s fuel idStr = some idStr := by
  simp [findRoot, h, findRootAux]

theorem findRoot_of_parent_none (s : Registry) (fuel : Nat) (idStr : String)
    (t : ModelMeta) (h : get_model s idStr = some t)
    (hp : t.parent_model_id = none) : findRoot s fuel idStr = some idStr := by
  simp [findRoot, h, findRootAux, hp]

theorem findRoot_succ_of_parent (s : Registry) (fuel : Nat) (idStr : String)
    (t : ModelMeta) (p : String) (h : get_model s idStr = some t)
    (hp : t.parent_model_id = some p) :
    findRoot s (fuel + 1) idStr = findRoot s fuel p := by
  simp [findRoot, h, findRootAux, hp]

theorem rootReach_step (s : Registry) (idStr p : String) (t : ModelMeta)
    (h : get_model s idStr = some t) (hp : t.parent_model_id = some p) (a : String) :
    RootReach s idStr a ↔ RootReach s p a := by
  constructor
  · rintro ⟨f, hf⟩
    cases f with
    | zero => simp [findRoot, h, findRootAux, hp] at hf
    | succ g =>
      rw [findRoot_succ_of_parent s g idStr t p h hp] at hf
      exact ⟨g, hf⟩
  · rintro ⟨f, hf⟩
    exact ⟨f + 1, by rw [findRoot_succ_of_parent s f idStr t p h hp]; exact hf⟩

theorem rootReach_self_of_parent_none (s : Registry) (idStr : String)
    (t : ModelMeta) (h : get_model s idStr = some t)
    (hp : t.parent_model_id = none) : RootReach s idStr idStr :=
  ⟨0, findRoot_of_parent_none s 0 idStr t h hp⟩

theorem rootReach_self_of_get_none (s : Registry) (idStr : String)
    (h : get_model s idStr = none) : RootReach s idStr idStr :=
  ⟨0, findRoot_of_get_none s 0 idStr h⟩

/-! ## Termination of the walk on acyclic registries -/

theorem findRootAux_terminates_aux (s : Registry) (hpe : ParentsEarlier s) :
    ∀ j r, s.get? j = some r → ∀ rootId fuel, j < fuel →
      findRootAux s fuel rootId (some r) ≠ none := by
  intro j
  induction j using Nat.strong_induction_on with
  | _ j ih =>
    intro r hj rootId fuel hf
    rcases hp : r.parent_model_id with _ | p
    · simp [findRootAux, hp]
    · obtain ⟨f', rfl⟩ : ∃ f', fuel = f' + 1 := ⟨fuel - 1, by omega⟩
      simp only [findRootAux, hp]
      rcases hg : get_model s p with _ | q
      · simp [findRootAux]
      · obtain ⟨i, hi⟩ := get_model_eq_some_index s p q hg
        have hqid : q.id = p := (get_model_eq_some s p q hg).2
        have hij : i < j := hpe j r hj p hp i q hi hqid
        exact ih i hij q hi p f' (by omega)

theorem findRoot_terminates (s : Registry) (hpe : ParentsEarlier s)
    (idStr : String) : findRoot s s.length idStr ≠ none := by
  rcases hg : get_model s idStr with _ | r
  · rw [findRoot_of_get_none s s.length idStr hg]
    exact Option.some_ne_none _
  · obtain ⟨j, hj⟩ := get_model_eq_some_index s idStr r hg
    have hjlt : j < s.length := (List.get?_eq_some.mp hj).1
    have := findRootAux_terminates_aux s hpe j r hj idStr s.length hjlt
    simpa [findRoot, hg] using this

theorem rootAtId_isSome (s : Registry) (hpe : ParentsEarlier s) (idStr : String) :
    ∃ a, rootAtId s idStr = some a := by
  rcases h : rootAtId s idStr with _ | a
  · exact absurd h (findRoot_terminates s hpe idStr)
  · exact ⟨a, rfl⟩

theorem rootAtId_of_rootReach (s : Registry) (hpe : ParentsEarlier s)
    (idStr a : String) (h : RootReach s idStr a) : rootAtId s idStr = some a := by
  obtain ⟨b, hb⟩ := rootAtId_isSome s hpe idStr
  exact rootAtId_of_rootReach_of_some s idStr a b h hb

theorem rootReach_of_rootAtId (s : Registry) (idStr a : String)
    (h : rootAtId s idStr = some a) : RootReach s idStr a := ⟨s.length, h⟩

/-- The root the walk returns is the id of a parentless registry record,
provided the start id resolves and no parent link dangles. -/
theorem findRoot_root_mem (s : Registry) (hpp : ParentsPresent s) :
    ∀ fuel idStr q, get_model s idStr = some q → ∀ a,
      findRoot s fuel idStr = some a →
      ∃ rootRec ∈ s, rootRec.id = a ∧ rootRec.parent_model_id = none := by
  intro fuel
  induction fuel with
  | zero =>
    intro idStr q hq a ha
    rcases hp : q.parent_model_id with _ | p
    · have : idStr = a := by
        have := findRoot_of_parent_none s 0 idStr q hq hp
        rw [this] at ha
        exact Option.some_injective _ ha
      exact ⟨q, (get_model_eq_some s idStr q hq).1, this ▸ (get_model_eq_some s idStr q hq).2, hp⟩
    · simp [findRoot, hq, findRootAux, hp] at ha
  | succ f ih =>
    intro idStr q hq a ha
    rcases hp : q.parent_model_id with _ | p
    · have : idStr = a := by
        have := findRoot_of_parent_none s (f + 1) idStr q hq hp
        rw [this] at ha
        exact Option.some_injective _ ha
      exact ⟨q, (get_model_eq_some s idStr q hq).1, this ▸ (get_model_eq_some s idStr q hq).2, hp⟩
    · rw [findRoot_succ_of_parent s f idStr q p hq hp] at ha
      obtain ⟨q', hq'mem, hq'id⟩ :=
        hpp q (get_model_eq_some s idStr q hq).1 p hp
      rcases hg : get_model s p with _ | q''
      · exact absurd (hq'id ▸ rfl) (get_model_eq_none s p hg q' hq'mem)
      · exact ih p q'' hg a ha

/-! ## Invariance of the walk under field flips and fresh appends -/

theorem get_model_map (s : Registry) (f : ModelMeta → ModelMeta)
    (hid : ∀ r, (f r).id = r.id) (x : String) :
    get_model (s.map f) x = (get_model s x).map f := by
  induction s with
  | nil => rfl
  | cons r xs ih =>
    by_cases h : r.id = x
    · simp [get_model, List.find?, hid, h]
    · have h1 : (r.id == x) = false := beq_eq_false_iff_ne.mpr h
      have h2 : ((f r).id == x) = false := by rw [hid]; exact h1
      simpa [get_model, List.find?, h1, h2] using ih

theorem findRootAux_map (s : Registry) (f : ModelMeta → ModelMeta)
    (hid : ∀ r, (f r).id = r.id)
    (hpar : ∀ r, (f r).parent_model_id = r.parent_model_id) :
    ∀ fuel rootId t, findRootAux (s.map f) fuel rootId (Option.map f t) =
      findRootAux s fuel rootId t := by
  intro fuel
  induction fuel with
  | zero =>
    intro rootId t
    cases t with
    | none => rfl
    | some q =>
      rcases hp : q.parent_model_id with _ | p
      · simp [findRootAux, hpar, hp]
      · simp [findRootAux, hpar, hp]
  | succ g ih =>
    intro rootId t
    cases t with
    | none => rfl
    | some q =>
      rcases hp : q.parent_model_id with _ | p
      · simp [findRootAux, hpar, hp]
      · have hl : Option.map f (some q) = some (f q) := rfl
        rw [hl]
        have h1 : (f q).parent_model_id = some p := by rw [hpar]; exact hp
        simp only [findRootAux, h1, hp]
        rw [get_model_map s f hid p]
        exact ih p (get_model s p)

theorem findRoot_map (s : Registry) (f : ModelMeta → ModelMeta)
    (hid : ∀ r, (f r).id = r.id)
    (hpar : ∀ r, (f r).parent_model_id = r.parent_model_id)
    (fuel : Nat) (x : String) :
    findRoot (s.map f) fuel x = findRoot s fuel x := by
  unfold findRoot
  rw [get_model_map s f hid x]
  exact findRootAux_map s f hid hpar fuel x (get_model s x)

theorem rootAtId_map (s : Registry) (f : ModelMeta → ModelMeta)
    (hid : ∀ r, (f r).id = r.id)
    (hpar : ∀ r, (f r).parent_model_id = r.parent_model_id) (x : String) :
    rootAtId (s.map f) x = rootAtId s x := by
  unfold rootAtId
  rw [List.length_map]
  exact findRoot_map s f hid hpar s.length x

theorem get_model_append_of_some (s t : Registry) (x : String) (q : ModelMeta)
    (h : get_model s x = some q) : get_model (s ++ t) x = some q := by
  induction s with
  | nil => simp [get_model, List.find?] at h
  | cons r xs ih =>
    by_cases hr : r.id = x
    · simp_all [get_model, List.find?, hr]
    · have h1 : (r.id == x) = false := beq_eq_false_iff_ne.mpr hr
      simp only [get_model, List.cons_append, List.find?, h1] at h ⊢
      exact ih h

theorem get_model_append_of_none (s t : Registry) (x : String)
    (h : get_model s x = none) : get_model (s ++ t) x = get_model t x := by
  induction s with
  | nil => rfl
  | cons r xs ih =>
    by_cases hr : r.id = x
    · simp [get_model, List.find?, hr] at h
    · have h1 : (r.id == x) = false := beq_eq_false_iff_ne.mpr hr
      simp only [get_model, List.cons_append, List.find?, h1] at h ⊢
      exact ih h

theorem findRootAux_append (s t : Registry) (hpp : ParentsPresent s) :
    ∀ fuel rootId q, q ∈ s →
      findRootAux (s ++ t) fuel rootId (some q) =
        findRootAux s fuel rootId (some q) := by
  intro fuel
  induction fuel with
  | zero =>
    intro rootId q _
    rcases hp : q.parent_model_id with _ | p <;> simp [findRootAux, hp]
  | succ g ih =>
    intro rootId q hq
    rcases hp : q.parent_model_id with _ | p
    · simp [findRootAux, hp]
    · simp only [findRootAux, hp]
      obtain ⟨q', hq'mem, hq'id⟩ := hpp q hq p hp
      rcases hg : get_model s p with _ | q''
      · exact absurd (hq'id ▸ rfl) (get_model_eq_none s p hg q' hq'mem)
      · rw [get_model_append_of_some s t p q'' hg]
        exact ih p q'' (get_model_eq_some s p q'' hg).1

theorem findRoot_append (s t : Registry) (hpp : ParentsPresent s)
    (fuel : Nat) (x : String) (q : ModelMeta) (h : get_model s x = some q) :
    findRoot (s ++ t) fuel x = findRoot s fuel x := by
  unfold findRoot
  rw [get_model_append_of_some s t x q h, h]
  exact findRootAux_append s t hpp fuel x q (get_model_eq_some s x q h).1

/-- Appending a fresh record does not change the root of any existing id. -/
theorem rootAtId_append (s : Registry) (n : ModelMeta) (hpp : ParentsPresent s)
    (x : String) (q : ModelMeta) (h : get_model s x = some q) (a : String)
    (ha : rootAtId s x = some a) : rootAtId (s ++ [n]) x = some a := by
  unfold rootAtId
  rw [findRoot_append s [n] hpp _ x q h]
  exact findRoot_le s s.length (s ++ [n]).length (by simp) x a ha

/-! ## The descendant walk -/

theorem isDescAux_mono (s : Registry) :
    ∀ fuel target anc b, isDescAux s fuel target anc = some b →
      isDescAux s (fuel + 1) target anc = some b := by
  intro fuel
  induction fuel with
  | zero =>
    intro target anc b h
    cases target with
    | none => simpa [isDescAux] using h
    | some m =>
      rcases hp : m.parent_model_id with _ | p
      · simpa [isDescAux, hp] using h
      · by_cases ha : (p == anc) = true
        · simpa [isDescAux, hp, ha] using h
        · simp [isDescAux, hp, ha] at h
  | succ f ih =>
    intro target anc b h
    cases target with
    | none => simpa [isDescAux] using h
    | some m =>
      rcases hp : m.parent_model_id with _ | p
      · simpa [isDescAux, hp] using h
      · by_cases ha : (p == anc) = true
        · simpa [isDescAux, hp, ha] using h
        · simp only [isDescAux, hp, ha] at h ⊢
          simp only [Bool.false_eq_true, if_false] at h ⊢
          exact ih (get_model s p) anc b h

theorem isDescAux_le (s : Registry) (fuel g : Nat) (hle : fuel ≤ g)
    (target : Option ModelMeta) (anc : String) (b : Bool)
    (h : isDescAux s fuel target anc = some b) :
    isDescAux s g target anc = some b := by
  induction g with
  | zero =>
    have : fuel = 0 := Nat.le_zero.mp hle
    exact this ▸ h
  | succ g ih =>
    rcases Nat.lt_or_ge fuel (g + 1) with hlt | hge
    · exact isDescAux_mono s g target anc b (ih (Nat.lt_succ_iff.mp hlt))
    · have : fuel = g + 1 := Nat.le_antisymm hle hge
      exact this ▸ h

theorem isDescAux_functional (s : Registry) (f g : Nat)
    (target : Option ModelMeta) (anc : String) (a b : Bool)
    (hf : isDescAux s f target anc = some a)
    (hg : isDescAux s g target anc = some b) : a = b := by
  have h1 := isDescAux_le s f (f + g) (Nat.le_add_right f g) target anc a hf
  have h2 := isDescAux_le s g (f + g) (Nat.le_add_left g f) target anc b hg
  rw [h1] at h2
  exact Option.some_injective _ h2

theorem isDescAux_terminates_aux (s : Registry) (hpe : ParentsEarlier s) :
    ∀ j r, s.get? j = some r → ∀ anc fuel, j < fuel →
      isDescAux s fuel (some r) anc ≠ none := by
  intro j
  induction j using Nat.strong_induction_on with
  | _ j ih =>
    intro r hj anc fuel hf
    rcases hp : r.parent_model_id with _ | p
    · simp [isDescAux, hp]
    · by_cases ha : (p == anc) = true
      · simp [isDescAux, hp, ha]
      · obtain ⟨f', rfl⟩ : ∃ f', fuel = f' + 1 := ⟨fuel - 1, by omega⟩
        simp only [isDescAux, hp, ha]
        simp only [Bool.false_eq_true, if_false]
        rcases hg : get_model s p with _ | q
        · simp [isDescAux]
        · obtain ⟨i, hi⟩ := get_model_eq_some_index s p q hg
          have hqid : q.id = p := (get_model_eq_some s p q hg).2
          have hij : i < j := hpe j r hj p hp i q hi hqid
          exact ih i hij q hi anc f' (by omega)

/-- A positive descendant test means the walk from the record reaches the
ancestor, so both share every root the walk can reach. -/
theorem isDesc_rootReach (s : Registry) (hpp : ParentsPresent s) :
    ∀ fuel m anc, get_model s m.id = some m →
      isDescAux s fuel (some m) anc = some true →
      ∀ a, (RootReach s m.id a ↔ RootReach s anc a) := by
  intro fuel
  induction fuel with
  | zero =>
    intro m anc hm h a
    rcases hp : m.parent_model_id with _ | p
    · simp [isDescAux, hp] at h
    · by_cases ha : (p == anc) = true
      · have hpa : p = anc := eq_of_beq ha
        exact hpa ▸ rootReach_step s m.id p m hm hp a
      · simp [isDescAux, hp, ha] at h
  | succ f ih =>
    intro m anc hm h a
    rcases hp : m.parent_model_id with _ | p
    · simp [isDescAux, hp] at h
    · by_cases ha : (p == anc) = true
      · have hpa : p = anc := eq_of_beq ha
        exact hpa ▸ rootReach_step s m.id p m hm hp a
      · simp only [isDescAux, hp, ha] at h
        simp only [Bool.false_eq_true, if_false] at h
        obtain ⟨q', hq'mem, hq'id⟩ := hpp m (get_model_eq_some s m.id m hm).1 p hp
        rcases hg : get_model s p with _ | q
        · exact absurd (hq'id ▸ rfl) (get_model_eq_none s p hg q' hq'mem)
        · rw [hg] at h
          have hqid : q.id = p := (get_model_eq_some s p q hg).2
          have hqget : get_model s q.id = some q := by rw [hqid]; exact hg
          have hstep := rootReach_step s m.id p m hm hp a
          have hrec := ih q anc hqget h a
          rw [hstep, ← hqid]
          exact hrec

/-- Conversely, a record whose walk reaches root `rid`, other than the root
itself and its immediate children, tests positive as a descendant. -/
theorem descend_of_rootReach (s : Registry) :
    ∀ fuel x m rid, get_model s x = some m →
      findRootAux s fuel x (some m) = some rid → x ≠ rid →
      m.parent_model_id = some rid ∨
        ∃ g, isDescAux s g (some m) rid = some true := by
  intro fuel
  induction fuel with
  | zero =>
    intro x m rid hm h hx
    rcases hp : m.parent_model_id with _ | p
    · exact absurd (Option.some_injective _ (by simpa [findRootAux, hp] using h)) hx
    · simp [findRootAux, hp] at h
  | succ f ih =>
    intro x m rid hm h hx
    rcases hp : m.parent_model_id with _ | p
    · exact absurd (Option.some_injective _ (by simpa [findRootAux, hp] using h)) hx
    · by_cases hpr : p = rid
      · exact Or.inl (by rw [hpr])
      · simp only [findRootAux, hp] at h
        rcases hg : get_model s p with _ | q
        · rw [hg] at h
          have : p = rid := Option.some_injective _ (by simpa [findRootAux] using h)
          exact absurd this hpr
        · rw [hg] at h
          rcases ih p q rid hg h hpr with hq | ⟨g, hdg⟩
          · refine Or.inr ⟨1, ?_⟩
            have hbeq : (p == rid) = false := beq_eq_false_iff_ne.mpr hpr
            simp only [isDescAux, hp, hbeq]
            simp only [Bool.false_eq_true, if_false]
            rw [hg]
            have hbeq2 : (rid == rid) = true := beq_self_eq_true rid
            simp [isDescAux, hq, hbeq2]
          · refine Or.inr ⟨g + 1, ?_⟩
            have hbeq : (p == rid) = false := beq_eq_false_iff_ne.mpr hpr
            simp only [isDescAux, hp, hbeq]
            simp only [Bool.false_eq_true, if_false]
            rw [hg]
            exact hdg

/-! ## The collection loop and the family characterization -/

theorem collectFamily_some (s : Registry) (fuel : Nat) (rootId : String) :
    ∀ l : List ModelMeta,
      (∀ m ∈ l, _is_descendant s fuel m.id rootId ≠ none) →
      ∃ F, collectFamily s fuel rootId l = some F ∧
        ∀ x, x ∈ F ↔ x ∈ l ∧
          (x.id = rootId ∨ x.parent_model_id = some rootId ∨
            _is_descendant s fuel x.id rootId = some true) := by
  intro l
  induction l with
  | nil => exact fun _ => ⟨[], rfl, by simp⟩
  | cons m rest ih =>
    intro hterm
    obtain ⟨F, hF, hmem⟩ := ih (fun x hx => hterm x (List.mem_cons_of_mem m hx))
    by_cases hdir : (m.id == rootId || m.parent_model_id == some rootId) = true
    · refine ⟨m :: F, ?_, ?_⟩
      · simp [collectFamily, hdir, hF]
      · intro x
        constructor
        · intro hx
          rcases List.mem_cons.mp hx with hx | hx
          · subst hx
            rcases Bool.or_eq_true_iff.mp hdir with h1 | h1
            · exact ⟨List.mem_cons_self _ _, Or.inl (eq_of_beq h1)⟩
            · exact ⟨List.mem_cons_self _ _, Or.inr (Or.inl (eq_of_beq h1))⟩
          · obtain ⟨hx1, hx2⟩ := (hmem x).mp hx
            exact ⟨List.mem_cons_of_mem m hx1, hx2⟩
        · rintro ⟨hx1, hx2⟩
          rcases List.mem_cons.mp hx1 with hx1 | hx1
          · exact hx1 ▸ List.mem_cons_self _ _
          · exact List.mem_cons_of_mem m ((hmem x).mpr ⟨hx1, hx2⟩)
    · rcases hdsc : _is_descendant s fuel m.id rootId with _ | b
      · exact absurd hdsc (hterm m (List.mem_cons_self m rest))
      · have hnotid : m.id ≠ rootId := by
          intro h
          apply hdir
          simp [h]
        have hnotpar : m.parent_model_id ≠ some rootId := by
          intro h
          apply hdir
          simp [h]
        cases b with
        | true =>
          refine ⟨m :: F, ?_, ?_⟩
          · simp [collectFamily, hdir, hdsc, hF]
          · intro x
            constructor
            · intro hx
              rcases List.mem_cons.mp hx with hx | hx
              · subst hx
                exact ⟨List.mem_cons_self _ _, Or.inr (Or.inr hdsc)⟩
              · obtain ⟨hx1, hx2⟩ := (hmem x).mp hx
                exact ⟨List.mem_cons_of_mem m hx1, hx2⟩
            · rintro ⟨hx1, hx2⟩
              rcases List.mem_cons.mp hx1 with hx1 | hx1
              · exact hx1 ▸ List.mem_cons_self _ _
              · exact List.mem_cons_of_mem m ((hmem x).mpr ⟨hx1, hx2⟩)
        | false =>
          refine ⟨F, ?_, ?_⟩
          · simp [collectFamily, hdir, hdsc, hF]
          · intro x
            constructor
            · intro hx
              obtain ⟨hx1, hx2⟩ := (hmem x).mp hx
              exact ⟨List.mem_cons_of_mem m hx1, hx2⟩
            · rintro ⟨hx1, hx2⟩
              rcases List.mem_cons.mp hx1 with hx1 | hx1
              · subst hx1
                rcases hx2 with h | h | h
                · exact absurd h hnotid
                · exact absurd h hnotpar
                · rw [hdsc] at h
                  cases h
              · exact (hmem x).mpr ⟨hx1, hx2⟩

theorem le_maxVersion_aux :
    ∀ (l : List ModelMeta) (init : Nat),
      init ≤ l.foldl (fun a m => Nat.max a m.version) init ∧
      ∀ x ∈ l, x.version ≤ l.foldl (fun a m => Nat.max a m.version) init := by
  intro l
  induction l with
  | nil => exact fun init => ⟨Nat.le_refl _, by simp⟩
  | cons m rest ih =>
    intro init
    have h1 := ih (Nat.max init m.version)
    simp only [List.foldl_cons]
    constructor
    · exact Nat.le_trans (Nat.le_max_left init m.version) h1.1
    · intro x hx
      rcases List.mem_cons.mp hx with hx | hx
      · subst hx
        exact Nat.le_trans (Nat.le_max_right init x.version) h1.1
      · exact h1.2 x hx

theorem le_maxVersion (l : List ModelMeta) (x : ModelMeta) (hx : x ∈ l) :
    x.version ≤ maxVersion l :=
  (le_maxVersion_aux l 0).2 x hx

/-- Correctness of `_get_model_family` on an acyclic, dangling-free registry
with unique ids: the walk terminates, and the collected family is exactly
the set of records whose root (by the parent walk) equals the root of the
queried id. -/
theorem family_characterization (s : Registry) (hnd : NodupIds s)
    (hpe : ParentsEarlier s) (hpp : ParentsPresent s) (pid : String)
    (q : ModelMeta) (hq : get_model s pid = some q) :
    ∃ F rid, _get_model_family s s.length pid = some F ∧
      rootAtId s pid = some rid ∧
      ∀ x, x ∈ F ↔ x ∈ s ∧ rootAtId s x.id = some rid := by
  obtain ⟨rid, hrid⟩ := rootAtId_isSome s hpe pid
  obtain ⟨rootRec, hrootMem, hrootId, hrootPar⟩ :=
    findRoot_root_mem s hpp s.length pid q hq rid hrid
  have hrootGet : get_model s rid = some rootRec := by
    rw [← hrootId]
    exact get_model_mem_self s hnd rootRec hrootMem
  have hrootFix : rootAtId s rid = some rid :=
    rootAtId_of_rootReach s hpe rid rid
      (rootReach_self_of_parent_none s rid rootRec hrootGet hrootPar)
  have hterm : ∀ m ∈ s, _is_descendant s s.length m.id rid ≠ none := by
    intro m hm
    obtain ⟨j, hj⟩ := List.mem_iff_get?.mp hm
    have hjlt : j < s.length := (List.get?_eq_some.mp hj).1
    have hget : get_model s m.id = some m := get_model_mem_self s hnd m hm
    unfold _is_descendant
    rw [hget]
    exact isDescAux_terminates_aux s hpe j m hj rid s.length hjlt
  obtain ⟨F, hF, hFmem⟩ := collectFamily_some s s.length rid s hterm
  refine ⟨F, rid, ?_, hrid, ?_⟩
  · have hrid2 : findRoot s s.length pid = some rid := hrid
    unfold _get_model_family
    rw [hq, hrid2]
    exact hF
  · intro x
    rw [hFmem x]
    constructor
    · rintro ⟨hxs, hcase⟩
      refine ⟨hxs, ?_⟩
      have hxget : get_model s x.id = some x := get_model_mem_self s hnd x hxs
      rcases hcase with h | h | h
      · rw [h]
        exact hrootFix
      · have hstep := rootReach_step s x.id rid x hxget h rid
        exact rootAtId_of_rootReach s hpe x.id rid
          (hstep.mpr (rootReach_of_rootAtId s rid rid hrootFix))
      · unfold _is_descendant at h
        rw [hxget] at h
        have hiff := isDesc_rootReach s hpp s.length x rid hxget h rid
        exact rootAtId_of_rootReach s hpe x.id rid
          (hiff.mpr (rootReach_of_rootAtId s rid rid hrootFix))
    · rintro ⟨hxs, hroot⟩
      refine ⟨hxs, ?_⟩
      have hxget : get_model s x.id = some x := get_model_mem_self s hnd x hxs
      by_cases hid : x.id = rid
      · exact Or.inl hid
      · rcases descend_of_rootReach s s.length x.id x rid hxget
          (by unfold rootAtId findRoot at hroot; rw [hxget] at hroot; exact hroot)
          hid with h | ⟨g, hg⟩
        · exact Or.inr (Or.inl h)
        · refine Or.inr (Or.inr ?_)
          have hne := hterm x hxs
          unfold _is_descendant at hne ⊢
          rw [hxget] at hne ⊢
          rcases hb : isDescAux s s.length (some x) rid with _ | b
          · exact absurd hb hne
          · have hb2 := isDescAux_functional s g s.length (some x) rid true b hg hb
            rw [← hb2]

/-! ## The registry invariant -/

/-- The invariant maintained by the verified operation class: unique ids,
acyclic and dangling-free parent links (each parent strictly earlier in
insertion order), exactly one latest member per family, versions strictly
increasing in creation order within each family, and version 1 at each
root. -/
structure RegInv (s : Registry) : Prop where
  nodup : NodupIds s
  parentsEarlier : ParentsEarlier s
  parentsPresent : ParentsPresent s
  oneLatest : ∀ r ∈ s,
    s.countP (fun x => (rootAtId s x.id == rootAtId s r.id) && x.is_latest) = 1
  versionsMono : ∀ i j : Nat, i < j → ∀ ri rj, s.get? i = some ri →
    s.get? j = some rj → rootAtId s ri.id = rootAtId s rj.id →
    ri.version < rj.version
  rootOne : ∀ r ∈ s, r.parent_model_id = none → r.version = 1

theorem regInv_nil : RegInv [] where
  nodup := List.nodup_nil
  parentsEarlier := by intro j r hj; simp at hj
  parentsPresent := by intro r hr; simp at hr
  oneLatest := by intro r hr; simp at hr
  versionsMono := by intro i j _ ri rj hi; simp at hi
  rootOne := by intro r hr; simp at hr

/-! ## Transfer lemmas -/

theorem get_model_eq_none_of_not_mem (s : Registry) (x : String)
    (h : x ∉ regIds s) : get_model s x = none := by
  rcases hg : get_model s x with _ | q
  · rfl
  · obtain ⟨hmem, hid⟩ := get_model_eq_some s x q hg
    exact absurd (hid ▸ List.mem_map_of_mem (fun r => r.id) hmem) h

theorem mem_unique_of_nodup (s : Registry) (hnd : NodupIds s)
    (x y : ModelMeta) (hx : x ∈ s) (hy : y ∈ s) (h : x.id = y.id) : x = y := by
  have h1 := get_model_mem_self s hnd x hx
  have h2 := get_model_mem_self s hnd y hy
  rw [h] at h1
  rw [h1] at h2
  exact Option.some_injective _ h2

theorem regIds_map (s : Registry) (f : ModelMeta → ModelMeta)
    (hid : ∀ r, (f r).id = r.id) : regIds (s.map f) = regIds s := by
  unfold regIds
  rw [List.map_map]
  exact List.map_congr_left (fun r _ => hid r)

theorem parentsEarlier_map (s : Registry) (f : ModelMeta → ModelMeta)
    (hid : ∀ r, (f r).id = r.id)
    (hpar : ∀ r, (f r).parent_model_id = r.parent_model_id)
    (hpe : ParentsEarlier s) : ParentsEarlier (s.map f) := by
  intro j r' hj p hp i q' hi hq
  rw [List.get?_map] at hj hi
  rcases hr : s.get? j with _ | r
  · rw [hr] at hj; cases hj
  · rcases hqq : s.get? i with _ | q
    · rw [hqq] at hi; cases hi
    · rw [hr] at hj
      rw [hqq] at hi
      have hj' : r' = f r := (Option.some_injective _ hj).symm
      have hi' : q' = f q := (Option.some_injective _ hi).symm
      refine hpe j r hr p ?_ i q hqq ?_
      · rw [← hpar r, ← hj']; exact hp
      · rw [← hid q, ← hi']; exact hq

theorem parentsPresent_map (s : Registry) (f : ModelMeta → ModelMeta)
    (hid : ∀ r, (f r).id = r.id)
    (hpar : ∀ r, (f r).parent_model_id = r.parent_model_id)
    (hpp : ParentsPresent s) : ParentsPresent (s.map f) := by
  intro r' hr' p hp
  obtain ⟨r, hr, hfr⟩ := List.mem_map.mp hr'
  obtain ⟨q, hq, hqid⟩ := hpp r hr p (by rw [← hpar r, hfr]; exact hp)
  exact ⟨f q, List.mem_map_of_mem f hq, by rw [hid q]; exact hqid⟩

theorem parentsEarlier_append (s : Registry) (n : ModelMeta)
    (hpe : ParentsEarlier s)
    (hnopar : ∀ r ∈ s, r.parent_model_id ≠ some n.id)
    (hself : n.parent_model_id ≠ some n.id) : ParentsEarlier (s ++ [n]) := by
  intro j r hj p hp i q hi hqid
  by_cases hjl : j < s.length
  · rw [List.get?_append hjl] at hj
    have hrmem : r ∈ s := List.get?_mem hj
    by_cases hil : i < s.length
    · rw [List.get?_append hil] at hi
      exact hpe j r hj p hp i q hi hqid
    · rw [List.get?_append_right (Nat.le_of_not_lt hil)] at hi
      have hqn : q = n := by
        rcases hk : i - s.length with _ | k
        · rw [hk] at hi
          have h0 : n = q := by simpa using hi
          exact h0.symm
        · rw [hk] at hi
          simp at hi
      refine absurd ?_ (hnopar r hrmem)
      rw [hp, ← hqid, hqn]
  · rw [List.get?_append_right (Nat.le_of_not_lt hjl)] at hj
    have hrn : r = n := by
      rcases hk : j - s.length with _ | k
      · rw [hk] at hj
        have h0 : n = r := by simpa using hj
        exact h0.symm
      · rw [hk] at hj
        simp at hj
    by_cases hil : i < s.length
    · omega
    · rw [List.get?_append_right (Nat.le_of_not_lt hil)] at hi
      have hqn : q = n := by
        rcases hk : i - s.length with _ | k
        · rw [hk] at hi
          have h0 : n = q := by simpa using hi
          exact h0.symm
        · rw [hk] at hi
          simp at hi
      refine absurd ?_ hself
      rw [← hrn, hp, ← hqid, hqn, hrn]

theorem parentsPresent_append (s : Registry) (n : ModelMeta)
    (hpp : ParentsPresent s)
    (hn : ∀ p, n.parent_model_id = some p → ∃ q ∈ s, q.id = p) :
    ParentsPresent (s ++ [n]) := by
  intro r hr p hp
  rcases List.mem_append.mp hr with hr | hr
  · obtain ⟨q, hq, hqid⟩ := hpp r hr p hp
    exact ⟨q, List.mem_append_left _ hq, hqid⟩
  · have : r = n := by simpa using hr
    obtain ⟨q, hq, hqid⟩ := hn p (this ▸ hp)
    exact ⟨q, List.mem_append_left _ hq, hqid⟩

theorem nodupIds_append (s : Registry) (n : ModelMeta) (hnd : NodupIds s)
    (hfresh : n.id ∉ regIds s) : NodupIds (s ++ [n]) := by
  unfold NodupIds regIds at *
  rw [List.map_append]
  simp only [List.map_cons, List.map_nil]
  rw [List.nodup_append]
  exact ⟨hnd, List.nodup_singleton _, by
    intro a ha hb
    simp only [List.mem_singleton] at hb
    exact hfresh (hb ▸ ha)⟩

/-- The root assigned to a resolvable id is itself an id of the registry. -/
theorem rootAtId_mem_ids (s : Registry) (hpp : ParentsPresent s) (x : String)
    (q : ModelMeta) (hx : get_model s x = some q) (a : String)
    (ha : rootAtId s x = some a) : a ∈ regIds s := by
  obtain ⟨rootRec, hmem, hid, _⟩ := findRoot_root_mem s hpp s.length x q hx a ha
  exact hid ▸ List.mem_map_of_mem (fun r => r.id) hmem

theorem get_model_append_fresh (s : Registry) (n : ModelMeta)
    (hfresh : n.id ∉ regIds s) : get_model (s ++ [n]) n.id = some n := by
  rw [get_model_append_of_none s [n] n.id (get_model_eq_none_of_not_mem s n.id hfresh)]
  simp [get_model, List.find?]

/-- Appending a record with a fresh id preserves the invariant when the new
record is a version-1 latest root. -/
theorem regInv_append_root (s : Registry) (inv : RegInv s) (n : ModelMeta)
    (hfresh : n.id ∉ regIds s) (hpar : n.parent_model_id = none)
    (hlat : n.is_latest = true) (hver : n.version = 1) : RegInv (s ++ [n]) := by
  have hget : ∀ x ∈ s, get_model s x.id = some x :=
    fun x hx => get_model_mem_self s inv.nodup x hx
  have hroot_old : ∀ x ∈ s, rootAtId (s ++ [n]) x.id = rootAtId s x.id := by
    intro x hx
    obtain ⟨a, ha⟩ := rootAtId_isSome s inv.parentsEarlier x.id
    rw [ha]
    exact rootAtId_append s n inv.parentsPresent x.id x (hget x hx) a ha
  have hroot_ids : ∀ x ∈ s, ∃ a, rootAtId s x.id = some a ∧ a ∈ regIds s := by
    intro x hx
    obtain ⟨a, ha⟩ := rootAtId_isSome s inv.parentsEarlier x.id
    exact ⟨a, ha, rootAtId_mem_ids s inv.parentsPresent x.id x (hget x hx) a ha⟩
  have hroot_n : rootAtId (s ++ [n]) n.id = some n.id := by
    unfold rootAtId
    exact findRoot_of_parent_none (s ++ [n]) (s ++ [n]).length n.id n
      (get_model_append_fresh s n hfresh) hpar
  refine ⟨nodupIds_append s n inv.nodup hfresh, ?_, ?_, ?_, ?_, ?_⟩
  · refine parentsEarlier_append s n inv.parentsEarlier ?_ ?_
    · intro r hr hp
      obtain ⟨q, hq, hqid⟩ := inv.parentsPresent r hr n.id hp
      exact hfresh (hqid ▸ List.mem_map_of_mem (fun m => m.id) hq)
    · rw [hpar]; exact Option.noConfusion
  · refine parentsPresent_append s n inv.parentsPresent ?_
    intro p hp
    rw [hpar] at hp
    cases hp
  · intro r' hr'
    rw [List.countP_append]
    rcases List.mem_append.mp hr' with hmem | hmem
    · obtain ⟨a₀, ha₀, ha₀ids⟩ := hroot_ids r' hmem
      have hr'root : rootAtId (s ++ [n]) r'.id = some a₀ := by
        rw [hroot_old r' hmem, ha₀]
      have hcs : (s.countP fun x =>
          (rootAtId (s ++ [n]) x.id == rootAtId (s ++ [n]) r'.id) && x.is_latest) =
          s.countP fun x => (rootAtId s x.id == rootAtId s r'.id) && x.is_latest := by
        refine List.countP_congr ?_
        intro x hx
        rw [hroot_old x hx, hr'root, ha₀]
      have hcn : (List.countP (fun x =>
          (rootAtId (s ++ [n]) x.id == rootAtId (s ++ [n]) r'.id) && x.is_latest) [n]) = 0 := by
        rw [List.countP_singleton, hroot_n, hr'root]
        have : n.id ≠ a₀ := fun h => hfresh (h ▸ ha₀ids)
        simp [this]
      rw [hcs, hcn, inv.oneLatest r' hmem]
    · have hr'n : r' = n := by simpa using hmem
      have hr'root : rootAtId (s ++ [n]) r'.id = some n.id := by
        rw [hr'n]; exact hroot_n
      have hcs : (s.countP fun x =>
          (rootAtId (s ++ [n]) x.id == rootAtId (s ++ [n]) r'.id) && x.is_latest) = 0 := by
        rw [List.countP_eq_zero]
        intro x hx
        obtain ⟨a, ha, haids⟩ := hroot_ids x hx
        rw [hroot_old x hx, ha, hr'root]
        have : a ≠ n.id := fun h => hfresh (h ▸ haids)
        simp [this]
      have hcn : (List.countP (fun x =>
          (rootAtId (s ++ [n]) x.id == rootAtId (s ++ [n]) r'.id) && x.is_latest) [n]) = 1 := by
        rw [List.countP_singleton, hroot_n, hr'root]
        simp [hlat]
      rw [hcs, hcn]
  · intro i j hij ri rj hi hj hroots
    by_cases hjl : j < s.length
    · have hil : i < s.length := Nat.lt_trans hij hjl
      rw [List.get?_append hjl] at hj
      rw [List.get?_append hil] at hi
      have hrimem : ri ∈ s := List.get?_mem hi
      have hrjmem : rj ∈ s := List.get?_mem hj
      refine inv.versionsMono i j hij ri rj hi hj ?_
      rw [← hroot_old ri hrimem, ← hroot_old rj hrjmem]
      exact hroots
    · have hjlen : j < s.length + 1 := by
        have := (List.get?_eq_some.mp hj).1
        simpa using this
      have hjeq : j = s.length := by omega
      rw [List.get?_append_right (Nat.le_of_not_lt hjl), hjeq] at hj
      have hrjn : rj = n := by
        have h0 : n = rj := by simpa using hj
        exact h0.symm
      have hil : i < s.length := by omega
      rw [List.get?_append hil] at hi
      have hrimem : ri ∈ s := List.get?_mem hi
      obtain ⟨a, ha, haids⟩ := hroot_ids ri hrimem
      rw [hroot_old ri hrimem, ha, hrjn, hroot_n] at hroots
      have : a = n.id := Option.some_injective _ hroots
      exact absurd (this ▸ haids) hfresh
  · intro r hr hpnone
    rcases List.mem_append.mp hr with hmem | hmem
    · exact inv.rootOne r hmem hpnone
    · have : r = n := by simpa using hmem
      rw [this, hver]

/-! ## Field lemmas for the flip loops -/

theorem flipLatest_id (famIds : List String) (now : Nat) (r : ModelMeta) :
    (flipLatest famIds now r).id = r.id := by
  unfold flipLatest; split <;> rfl

theorem flipLatest_parent (famIds : List String) (now : Nat) (r : ModelMeta) :
    (flipLatest famIds now r).parent_model_id = r.parent_model_id := by
  unfold flipLatest; split <;> rfl

theorem flipLatest_version (famIds : List String) (now : Nat) (r : ModelMeta) :
    (flipLatest famIds now r).version = r.version := by
  unfold flipLatest; split <;> rfl

theorem flipLatest_isLatest_mem (famIds : List String) (now : Nat)
    (r : ModelMeta) (h : famIds.contains r.id = true) :
    (flipLatest famIds now r).is_latest = false := by
  have hmem : r.id ∈ famIds := by simpa [List.contains] using h
  unfold flipLatest
  cases hl : r.is_latest
  · simp [hl]
  · simp [hmem, hl]

theorem flipLatest_isLatest_not_mem (famIds : List String) (now : Nat)
    (r : ModelMeta) (h : famIds.contains r.id = false) :
    (flipLatest famIds now r).is_latest = r.is_latest := by
  have hmem : r.id ∉ famIds := by simpa [List.contains] using h
  unfold flipLatest
  simp [hmem]

theorem flipLatestNamed_id (nm : String) (now : Nat) (r : ModelMeta) :
    (flipLatestNamed nm now r).id = r.id := by
  unfold flipLatestNamed; split <;> rfl

theorem flipLatestNamed_parent (nm : String) (now : Nat) (r : ModelMeta) :
    (flipLatestNamed nm now r).parent_model_id = r.parent_model_id := by
  unfold flipLatestNamed; split <;> rfl

theorem countP_map_beta (l : List ModelMeta) (f : ModelMeta → ModelMeta)
    (p : ModelMeta → Bool) :
    (l.map f).countP p = l.countP (fun x => p (f x)) := by
  rw [List.countP_map]
  rfl

/-! ## The new-version step preserves the invariant -/

/-- Saving an explicit-parent new version: flipping the currently-latest
family members and appending the fresh record with version
`maxVersion F + 1` and `is_latest = true` preserves the registry
invariant. -/
theorem regInv_newVersion (s : Registry) (inv : RegInv s) (pid : String)
    (q : ModelMeta) (hq : get_model s pid = some q) (now : Nat)
    (F : List ModelMeta) (rid : String)
    (hrid : rootAtId s pid = some rid)
    (hFmem : ∀ x, x ∈ F ↔ x ∈ s ∧ rootAtId s x.id = some rid)
    (n : ModelMeta)
    (hfresh : n.id ∉ regIds s)
    (hnpar : n.parent_model_id = some pid)
    (hnlat : n.is_latest = true)
    (hnver : n.version = maxVersion F + 1) :
    RegInv (s.map (flipLatest (F.map (fun m => m.id)) now) ++ [n]) := by
  set famIds := F.map (fun m => m.id) with hfam
  set fl := flipLatest famIds now with hflDef
  have hfl_id : ∀ r, (fl r).id = r.id := fun r => flipLatest_id famIds now r
  have hfl_par : ∀ r, (fl r).parent_model_id = r.parent_model_id :=
    fun r => flipLatest_parent famIds now r
  have hfl_ver : ∀ r, (fl r).version = r.version :=
    fun r => flipLatest_version famIds now r
  have hget : ∀ x ∈ s, get_model s x.id = some x :=
    fun x hx => get_model_mem_self s inv.nodup x hx
  have hcontains : ∀ x ∈ s,
      (famIds.contains x.id = true ↔ rootAtId s x.id = some rid) := by
    intro x hx
    constructor
    · intro h
      have hmem : x.id ∈ famIds := by
        simpa [List.contains] using h
      obtain ⟨y, hyF, hyid⟩ := List.mem_map.mp hmem
      obtain ⟨hys, hyroot⟩ := (hFmem y).mp hyF
      have : y = x := mem_unique_of_nodup s inv.nodup y x hys hx hyid
      exact this ▸ hyroot
    · intro h
      have hxF : x ∈ F := (hFmem x).mpr ⟨hx, h⟩
      have : x.id ∈ famIds := List.mem_map_of_mem (fun m => m.id) hxF
      simpa [List.contains] using this
  have hlatT : ∀ x ∈ s, rootAtId s x.id = some rid → (fl x).is_latest = false := by
    intro x hx h
    exact flipLatest_isLatest_mem famIds now x ((hcontains x hx).mpr h)
  have hlatF : ∀ x ∈ s, rootAtId s x.id ≠ some rid →
      (fl x).is_latest = x.is_latest := by
    intro x hx h
    refine flipLatest_isLatest_not_mem famIds now x ?_
    cases hc : famIds.contains x.id
    · rfl
    · exact absurd ((hcontains x hx).mp hc) h
  have hroots1 : ∀ z, rootAtId (s.map fl) z = rootAtId s z :=
    fun z => rootAtId_map s fl hfl_id hfl_par z
  have hids1 : regIds (s.map fl) = regIds s := regIds_map s fl hfl_id
  have hnd1 : NodupIds (s.map fl) := by
    unfold NodupIds
    rw [hids1]
    exact inv.nodup
  have hpe1 : ParentsEarlier (s.map fl) :=
    parentsEarlier_map s fl hfl_id hfl_par inv.parentsEarlier
  have hpp1 : ParentsPresent (s.map fl) :=
    parentsPresent_map s fl hfl_id hfl_par inv.parentsPresent
  have hpid_ids : pid ∈ regIds s := by
    have := (get_model_eq_some s pid q hq).1
    have h2 := (get_model_eq_some s pid q hq).2
    exact h2 ▸ List.mem_map_of_mem (fun m => m.id) this
  have hfresh1 : n.id ∉ regIds (s.map fl) := by rw [hids1]; exact hfresh
  have hget1 : ∀ x ∈ s, get_model (s.map fl) x.id = some (fl x) := by
    intro x hx
    rw [get_model_map s fl hfl_id x.id, hget x hx]
    rfl
  have hpe' : ParentsEarlier (s.map fl ++ [n]) := by
    refine parentsEarlier_append (s.map fl) n hpe1 ?_ ?_
    · intro r hr hp
      obtain ⟨z, hz, hzid⟩ := hpp1 r hr n.id hp
      have : n.id ∈ regIds (s.map fl) :=
        hzid ▸ List.mem_map_of_mem (fun m => m.id) hz
      exact hfresh1 this
    · rw [hnpar]
      intro hcon
      have : pid = n.id := Option.some_injective _ hcon
      exact hfresh (this ▸ hpid_ids)
  have hpp' : ParentsPresent (s.map fl ++ [n]) := by
    refine parentsPresent_append (s.map fl) n hpp1 ?_
    intro p hp
    rw [hnpar] at hp
    have hppid : p = pid := (Option.some_injective _ hp).symm
    obtain ⟨hqmem, hqid⟩ := get_model_eq_some s pid q hq
    exact ⟨fl q, List.mem_map_of_mem fl hqmem, by rw [hfl_id, hqid, hppid]⟩
  have hroot_old : ∀ x ∈ s, rootAtId (s.map fl ++ [n]) x.id = rootAtId s x.id := by
    intro x hx
    obtain ⟨a, ha⟩ := rootAtId_isSome s inv.parentsEarlier x.id
    rw [ha]
    refine rootAtId_append (s.map fl) n hpp1 x.id (fl x) (hget1 x hx) a ?_
    rw [hroots1]
    exact ha
  have hroot_ids : ∀ x ∈ s, ∃ a, rootAtId s x.id = some a ∧ a ∈ regIds s := by
    intro x hx
    obtain ⟨a, ha⟩ := rootAtId_isSome s inv.parentsEarlier x.id
    exact ⟨a, ha, rootAtId_mem_ids s inv.parentsPresent x.id x (hget x hx) a ha⟩
  have hroot_n : rootAtId (s.map fl ++ [n]) n.id = some rid := by
    refine rootAtId_of_rootReach (s.map fl ++ [n]) hpe' n.id rid ?_
    have hgetn : get_model (s.map fl ++ [n]) n.id = some n :=
      get_model_append_fresh (s.map fl) n hfresh1
    rw [rootReach_step (s.map fl ++ [n]) n.id pid n hgetn hnpar rid]
    refine rootReach_of_rootAtId _ pid rid ?_
    have hqid := (get_model_eq_some s pid q hq).2
    have := hroot_old q (get_model_eq_some s pid q hq).1
    rw [hqid] at this
    rw [this, hrid]
  refine ⟨nodupIds_append (s.map fl) n hnd1 hfresh1, hpe', hpp', ?_, ?_, ?_⟩
  · intro r' hr'
    rw [List.countP_append, countP_map_beta, List.countP_singleton]
    rcases List.mem_append.mp hr' with hmem | hmem
    · obtain ⟨x₀, hx₀, hx₀eq⟩ := List.mem_map.mp hmem
      obtain ⟨a₀, ha₀, ha₀ids⟩ := hroot_ids x₀ hx₀
      have hr'root : rootAtId (s.map fl ++ [n]) r'.id = some a₀ := by
        rw [← hx₀eq, hfl_id, hroot_old x₀ hx₀, ha₀]
      by_cases hks : a₀ = rid
      · have hzero : (s.countP fun x =>
            ((rootAtId (s.map fl ++ [n]) (fl x).id ==
              rootAtId (s.map fl ++ [n]) r'.id) && (fl x).is_latest)) = 0 := by
          rw [List.countP_eq_zero]
          intro x hx
          obtain ⟨a, ha, _⟩ := hroot_ids x hx
          by_cases hxa : a = rid
          · rw [hlatT x hx (ha.trans (congrArg some hxa))]
            simp
          · have hne : a ≠ a₀ := fun hh => hxa (hh.trans hks)
            rw [hfl_id, hroot_old x hx, ha, hr'root]
            simp [hne]
        have hone : ((rootAtId (s.map fl ++ [n]) n.id ==
            rootAtId (s.map fl ++ [n]) r'.id) && n.is_latest) = true := by
          rw [hroot_n, hr'root, hnlat, hks]
          simp
        rw [hzero, hone]
        simp
      · have hcongr : (s.countP fun x =>
            ((rootAtId (s.map fl ++ [n]) (fl x).id ==
              rootAtId (s.map fl ++ [n]) r'.id) && (fl x).is_latest)) =
            s.countP fun x =>
              ((rootAtId s x.id == rootAtId s x₀.id) && x.is_latest) := by
          refine List.countP_congr ?_
          intro x hx
          obtain ⟨a, ha, _⟩ := hroot_ids x hx
          have hbeq : ((rootAtId (s.map fl ++ [n]) (fl x).id ==
              rootAtId (s.map fl ++ [n]) r'.id) && (fl x).is_latest) =
              ((rootAtId s x.id == rootAtId s x₀.id) && x.is_latest) := by
            rw [hfl_id, hroot_old x hx, hr'root, ha, ha₀]
            by_cases hxa : a = rid
            · have h1 : a ≠ a₀ := fun hh => hks (hh.symm.trans hxa)
              rw [hlatT x hx (ha.trans (congrArg some hxa))]
              simp [h1]
            · rw [hlatF x hx (by
                rw [ha]
                intro hh
                exact hxa (Option.some_injective _ hh))]
          exact iff_of_eq (congrArg (fun b => b = true) hbeq)
        have hzero : ((rootAtId (s.map fl ++ [n]) n.id ==
            rootAtId (s.map fl ++ [n]) r'.id) && n.is_latest) = false := by
          rw [hroot_n, hr'root]
          have h1 : rid ≠ a₀ := fun hh => hks hh.symm
          simp [h1]
        rw [hcongr, hzero, inv.oneLatest x₀ hx₀]
        simp
    · have hr'n : r' = n := by simpa using hmem
      have hr'root : rootAtId (s.map fl ++ [n]) r'.id = some rid := by
        rw [hr'n]; exact hroot_n
      have hzero : (s.countP fun x =>
          ((rootAtId (s.map fl ++ [n]) (fl x).id ==
            rootAtId (s.map fl ++ [n]) r'.id) && (fl x).is_latest)) = 0 := by
        rw [List.countP_eq_zero]
        intro x hx
        obtain ⟨a, ha, _⟩ := hroot_ids x hx
        by_cases hxa : a = rid
        · rw [hlatT x hx (ha.trans (congrArg some hxa))]
          simp
        · rw [hfl_id, hroot_old x hx, ha, hr'root]
          simp [hxa]
      have hone : ((rootAtId (s.map fl ++ [n]) n.id ==
          rootAtId (s.map fl ++ [n]) r'.id) && n.is_latest) = true := by
        rw [hroot_n, hr'root, hnlat]
        simp
      rw [hzero, hone]
      simp
  · intro i j hij ri rj hi hj hroots
    have hjlen : j < s.length + 1 := by
      have := (List.get?_eq_some.mp hj).1
      simpa using this
    by_cases hjl : j < s.length
    · have hil : i < s.length := Nat.lt_trans hij hjl
      rw [List.get?_append (by simpa using hjl)] at hj
      rw [List.get?_append (by simpa using hil)] at hi
      rw [List.get?_map] at hi hj
      rcases hxi : s.get? i with _ | xi
      · rw [hxi] at hi; cases hi
      · rcases hxj : s.get? j with _ | xj
        · rw [hxj] at hj; cases hj
        · rw [hxi] at hi
          rw [hxj] at hj
          have hri : ri = fl xi := (Option.some_injective _ hi).symm
          have hrj : rj = fl xj := (Option.some_injective _ hj).symm
          have hxi_mem : xi ∈ s := List.get?_mem hxi
          have hxj_mem : xj ∈ s := List.get?_mem hxj
          rw [hri, hrj, hfl_ver, hfl_ver]
          refine inv.versionsMono i j hij xi xj hxi hxj ?_
          rw [hri, hfl_id, hroot_old xi hxi_mem] at hroots
          rw [hrj, hfl_id, hroot_old xj hxj_mem] at hroots
          exact hroots
    · have hjeq : j = s.length := by omega
      rw [List.get?_append_right (by simpa using Nat.le_of_not_lt hjl)] at hj
      have hlen1 : (s.map fl).length = s.length := by simp
      rw [hlen1, hjeq] at hj
      have hrjn : rj = n := by
        have h0 : n = rj := by simpa using hj
        exact h0.symm
      have hil : i < s.length := by omega
      rw [List.get?_append (by simpa using hil), List.get?_map] at hi
      rcases hxi : s.get? i with _ | xi
      · rw [hxi] at hi; cases hi
      · rw [hxi] at hi
        have hri : ri = fl xi := (Option.some_injective _ hi).symm
        have hxi_mem : xi ∈ s := List.get?_mem hxi
        rw [hri, hfl_id, hroot_old xi hxi_mem, hrjn, hroot_n] at hroots
        have hxiF : xi ∈ F := (hFmem xi).mpr ⟨hxi_mem, hroots⟩
        have hle : xi.version ≤ maxVersion F := le_maxVersion F xi hxiF
        rw [hri, hfl_ver, hrjn, hnver]
        omega
  · intro r hr hpnone
    rcases List.mem_append.mp hr with hmem | hmem
    · obtain ⟨x, hx, hxeq⟩ := List.mem_map.mp hmem
      have hxp : x.parent_model_id = none := by
        rw [← hfl_par x, hxeq]
        exact hpnone
      have := inv.rootOne x hx hxp
      rw [← hxeq, hfl_ver]
      exact this
    · have hrn : r = n := by simpa using hmem
      rw [hrn, hnpar] at hpnone
      cases hpnone

/-! ## Shape of a successful save and the per-operation step -/

/-- The record `save_model` creates when inspection of the written artifact
succeeds (`registry.py` lines 191-234): deployed, typed from the
`predict_proba` capability, feature names and info bag captured. -/
def deployedRecord (newId : String) (now : Nat) (meta : ModelMetaCreate)
    (info : LoadedInfo) (version : Nat) (parent : Option String) : ModelMeta where
  id := newId
  name := meta.name
  description := meta.description
  model_type := some (if info.has_predict_proba then .classifier else .regressor)
  status := .deployed
  file_path := some newId
  feature_names := info.feature_names
  model_info := some (.info info.model_class info.has_predict_proba info.n_features)
  created_at := now
  updated_at := now
  version := version
  parent_model_id := parent
  is_latest := true

/-- The record `save_model` creates when inspection raises (`registry.py`
lines 236-238): status `error`, the failure text in `model_info`. -/
def errorRecord (newId : String) (now : Nat) (meta : ModelMetaCreate)
    (e : String) (version : Nat) (parent : Option String) : ModelMeta where
  id := newId
  name := meta.name
  description := meta.description
  model_type := none
  status := .error
  file_path := some newId
  feature_names := none
  model_info := some (.errorInfo e)
  created_at := now
  updated_at := now
  version := version
  parent_model_id := parent
  is_latest := true

/-- After a successful version resolution and artifact write, `save_model`
appends exactly one record carrying the resolved version and parent, latest,
under the fresh id; a failed inspection only downgrades its status. -/
theorem save_model_ok_shape (s s1 : Registry) (version : Nat)
    (parent : Option String) (newId : String) (now : Nat)
    (meta : ModelMetaCreate) (lr : Except String LoadedInfo)
    (hres : resolveVersion s meta now = .ok s1 version parent) :
    ∃ nr, save_model s newId now meta true lr = .ok (s1 ++ [nr]) newId ∧
      nr.id = newId ∧ nr.parent_model_id = parent ∧ nr.is_latest = true ∧
      nr.version = version ∧ nr.name = meta.name ∧
      ∀ e, lr = .error e → nr.status = .error ∧
        nr.model_info = some (.errorInfo e) := by
  cases lr with
  | ok info =>
    refine ⟨deployedRecord newId now meta info version parent, ?_, rfl, rfl,
      rfl, rfl, rfl, ?_⟩
    · simp only [save_model, hres]
      rfl
    · intro e he
      cases he
  | error e =>
    refine ⟨errorRecord newId now meta e version parent, ?_, rfl, rfl, rfl,
      rfl, rfl, ?_⟩
    · simp only [save_model, hres]
      rfl
    · intro e' he'
      cases he'
      exact ⟨rfl, rfl⟩

/-- Reduction of `resolveVersion` when a new version names some parent id:
the truthiness test on the id decides between the explicit-parent branch
and the name-resolved fallback. -/
theorem resolveVersion_true_some (s : Registry) (meta : ModelMetaCreate)
    (now : Nat) (pid : String) (hnv : meta.is_new_version = true)
    (hpid : meta.parent_model_id = some pid) :
    resolveVersion s meta now =
      (if pid = "" then resolveVersionByName s meta now
       else
        match get_model s pid with
        | none => .raiseErr ("Parent model " ++ pid ++ " not found")
        | some _ =>
          match _get_model_family s s.length pid with
          | none => .hang
          | some family =>
            .ok (s.map (flipLatest (family.map (fun m => m.id)) now))
              (if family.isEmpty then 2 else maxVersion family + 1)
              (some pid)) := by
  unfold resolveVersion
  rw [hnv, hpid]

/-- Reduction of `resolveVersion` in the explicit-parent branch (a truthy,
non-empty parent id). -/
theorem resolveVersion_parent_eq (s : Registry) (meta : ModelMetaCreate)
    (now : Nat) (pid : String) (hnv : meta.is_new_version = true)
    (hpid : meta.parent_model_id = some pid) (hne : pid ≠ "") :
    resolveVersion s meta now =
      (match get_model s pid with
       | none => .raiseErr ("Parent model " ++ pid ++ " not found")
       | some _ =>
         match _get_model_family s s.length pid with
         | none => .hang
         | some family =>
           .ok (s.map (flipLatest (family.map (fun m => m.id)) now))
             (if family.isEmpty then 2 else maxVersion family + 1)
             (some pid)) := by
  rw [resolveVersion_true_some s meta now pid hnv hpid, if_neg hne]

/-- An empty-string parent id is falsy in Python, so the name-resolved
fallback runs. -/
theorem resolveVersion_empty_eq (s : Registry) (meta : ModelMetaCreate)
    (now : Nat) (hnv : meta.is_new_version = true)
    (hpid : meta.parent_model_id = some "") :
    resolveVersion s meta now = resolveVersionByName s meta now := by
  rw [resolveVersion_true_some s meta now "" hnv hpid, if_pos rfl]

/-- A `None` parent id takes the name-resolved fallback. -/
theorem resolveVersion_none_eq (s : Registry) (meta : ModelMetaCreate)
    (now : Nat) (hnv : meta.is_new_version = true)
    (hpid : meta.parent_model_id = none) :
    resolveVersion s meta now = resolveVersionByName s meta now := by
  unfold resolveVersion
  rw [hnv, hpid]

theorem goodSave_step (s : Registry) (inv : RegInv s) (newId : String)
    (now : Nat) (meta : ModelMetaCreate) (lr : Except String LoadedInfo)
    (hfresh : newId ∉ regIds s)
    (hgood : meta.is_new_version = true →
      meta.parent_model_id.isSome ∧ meta.parent_model_id ≠ some "") :
    RegInv (applyOp s (.save newId now meta true lr)) ∧
      regIds (applyOp s (.save newId now meta true lr)) ⊆ newId :: regIds s := by
  cases hnv : meta.is_new_version with
  | false =>
    have hres : resolveVersion s meta now = .ok s 1 none := by
      simp only [resolveVersion, hnv]
    obtain ⟨nr, hsave, hid, hpar, hlat, hver, _, _⟩ :=
      save_model_ok_shape s s 1 none newId now meta lr hres
    have happ : applyOp s (.save newId now meta true lr) = s ++ [nr] := by
      simp only [applyOp, hsave]
    rw [happ]
    constructor
    · exact regInv_append_root s inv nr (hid ▸ hfresh) hpar hlat hver
    · intro x hx
      unfold regIds at hx
      rw [List.map_append] at hx
      rcases List.mem_append.mp hx with hx | hx
      · exact List.mem_cons_of_mem _ hx
      · simp only [List.map_cons, List.map_nil, List.mem_singleton] at hx
        rw [hx, hid]
        exact List.mem_cons_self _ _
  | true =>
    obtain ⟨hsome, hnemp⟩ := hgood hnv
    obtain ⟨pid, hpid⟩ := Option.isSome_iff_exists.mp hsome
    have hpne : pid ≠ "" := by
      intro h
      exact hnemp (by rw [hpid, h])
    rcases hqq : get_model s pid with _ | q
    · have hres : resolveVersion s meta now =
          .raiseErr ("Parent model " ++ pid ++ " not found") := by
        rw [resolveVersion_parent_eq s meta now pid hnv hpid hpne, hqq]
      have happ : applyOp s (.save newId now meta true lr) = s := by
        simp only [applyOp, save_model, hres]
      rw [happ]
      exact ⟨inv, List.subset_cons_self _ _⟩
    · obtain ⟨F, rid, hF, hrid, hFmem⟩ :=
        family_characterization s inv.nodup inv.parentsEarlier
          inv.parentsPresent pid q hqq
      have hqF : q ∈ F := by
        refine (hFmem q).mpr ⟨(get_model_eq_some s pid q hqq).1, ?_⟩
        rw [(get_model_eq_some s pid q hqq).2]
        exact hrid
      have hFne : F.isEmpty = false := by
        cases F with
        | nil => cases hqF
        | cons a l => rfl
      have hres : resolveVersion s meta now =
          .ok (s.map (flipLatest (F.map (fun m => m.id)) now))
            (maxVersion F + 1) (some pid) := by
        rw [resolveVersion_parent_eq s meta now pid hnv hpid hpne, hqq, hF]
        simp [hFne]
      obtain ⟨nr, hsave, hid, hpar, hlat, hver, _, _⟩ :=
        save_model_ok_shape s _ (maxVersion F + 1) (some pid) newId now meta lr hres
      have happ : applyOp s (.save newId now meta true lr) =
          (s.map (flipLatest (F.map (fun m => m.id)) now)) ++ [nr] := by
        simp only [applyOp, hsave]
      rw [happ]
      constructor
      · exact regInv_newVersion s inv pid q hqq now F rid hrid hFmem nr
          (hid ▸ hfresh) hpar hlat hver
      · intro x hx
        unfold regIds at hx
        rw [List.map_append] at hx
        rcases List.mem_append.mp hx with hx | hx
        · have : x ∈ regIds (s.map (flipLatest (F.map (fun m => m.id)) now)) := hx
          rw [regIds_map s _ (fun r => flipLatest_id _ now r)] at this
          exact List.mem_cons_of_mem _ this
        · simp only [List.map_cons, List.map_nil, List.mem_singleton] at hx
          rw [hx, hid]
          exact List.mem_cons_self _ _

/-- Running any sequence of in-class saves with globally fresh ids from an
invariant-satisfying state preserves the invariant. -/
theorem runOps_inv : ∀ (ops : List Op) (s : Registry), RegInv s →
    (∀ op ∈ ops, GoodSaveOp op) → (saveIds ops).Nodup →
    (∀ x ∈ saveIds ops, x ∉ regIds s) → RegInv (ops.foldl applyOp s) := by
  intro ops
  induction ops with
  | nil => exact fun s inv _ _ _ => inv
  | cons op rest ih =>
    intro s inv hgood hnodup hfreshAll
    cases op with
    | del mid => exact absurd (hgood _ (List.mem_cons_self _ _)) (fun h => h)
    | save newId now meta writeOk lr =>
      obtain ⟨hw, hp⟩ := hgood _ (List.mem_cons_self _ _)
      subst hw
      have hfresh : newId ∉ regIds s := hfreshAll newId (by
        simp [saveIds])
      obtain ⟨inv', hsub⟩ := goodSave_step s inv newId now meta lr hfresh hp
      have hnodup' : (saveIds rest).Nodup := by
        have : (newId :: saveIds rest).Nodup := by simpa [saveIds] using hnodup
        exact (List.nodup_cons.mp this).2
      have hhead : newId ∉ saveIds rest := by
        have : (newId :: saveIds rest).Nodup := by simpa [saveIds] using hnodup
        exact (List.nodup_cons.mp this).1
      refine ih (applyOp s (.save newId now meta true lr)) inv'
        (fun o ho => hgood o (List.mem_cons_of_mem _ ho)) hnodup' ?_
      intro x hx hxmem
      rcases List.mem_cons.mp (hsub hxmem) with hxid | hxid
      · exact hhead (hxid ▸ hx)
      · exact hfreshAll x (by simp [saveIds, hx]) hxid

/-! ## Reconciliation: field preservation and idempotence -/

theorem migrateRecord_id (s : Registry) (r : ModelMeta) :
    (migrateRecord s r).id = r.id := by
  simp only [migrateRecord]
  split
  · split <;> rfl
  · rfl

theorem migrateRecord_name (s : Registry) (r : ModelMeta) :
    (migrateRecord s r).name = r.name := by
  simp only [migrateRecord]
  split
  · split <;> rfl
  · rfl

theorem migrateRecord_created_at (s : Registry) (r : ModelMeta) :
    (migrateRecord s r).created_at = r.created_at := by
  simp only [migrateRecord]
  split
  · split <;> rfl
  · rfl

theorem insertByCreatedAt_map (f : ModelMeta → ModelMeta)
    (hf : ∀ x, (f x).created_at = x.created_at) (m : ModelMeta) :
    ∀ l, insertByCreatedAt (f m) (l.map f) = (insertByCreatedAt m l).map f := by
  intro l
  induction l with
  | nil => rfl
  | cons x xs ih =>
    simp only [List.map_cons, insertByCreatedAt, hf]
    by_cases h : m.created_at ≤ x.created_at
    · rw [if_pos h, if_pos h]
      simp
    · rw [if_neg h, if_neg h, List.map_cons, ih]

theorem sortByCreatedAt_map (f : ModelMeta → ModelMeta)
    (hf : ∀ x, (f x).created_at = x.created_at) :
    ∀ l, sortByCreatedAt (l.map f) = (sortByCreatedAt l).map f := by
  intro l
  induction l with
  | nil => rfl
  | cons x xs ih =>
    simp only [List.map_cons, sortByCreatedAt, List.foldr_cons]
    rw [show (List.foldr insertByCreatedAt [] (List.map f xs)) =
      sortByCreatedAt (List.map f xs) from rfl, ih]
    exact insertByCreatedAt_map f hf x (sortByCreatedAt xs)

theorem migrateRecord_of_small (s : Registry) (r : ModelMeta)
    (h : ¬ (s.filter (fun m => m.name == r.name)).length > 1) :
    migrateRecord s r = { r with is_latest := true } := by
  simp only [migrateRecord]
  rw [if_neg h]

theorem migrateRecord_of_large_none (s : Registry) (r : ModelMeta)
    (h : (s.filter (fun m => m.name == r.name)).length > 1)
    (hidx : (sortByCreatedAt (s.filter (fun m => m.name == r.name))).findIdx?
      (fun m => m.id == r.id) = none) :
    migrateRecord s r = r := by
  simp only [migrateRecord]
  rw [if_pos h, hidx]

theorem migrateRecord_of_large_some (s : Registry) (r : ModelMeta) (i : Nat)
    (h : (s.filter (fun m => m.name == r.name)).length > 1)
    (hidx : (sortByCreatedAt (s.filter (fun m => m.name == r.name))).findIdx?
      (fun m => m.id == r.id) = some i) :
    migrateRecord s r =
      { r with
        version := i + 1,
        is_latest := i + 1 == (sortByCreatedAt (s.filter (fun m => m.name == r.name))).length } := by
  simp only [migrateRecord]
  rw [if_pos h, hidx]

theorem migrateRecord_map_self (s : Registry) (r : ModelMeta) :
    migrateRecord (s.map (migrateRecord s)) (migrateRecord s r) =
      migrateRecord s r := by
  have hgroup : (s.map (migrateRecord s)).filter
      (fun m => m.name == (migrateRecord s r).name) =
      (s.filter (fun m => m.name == r.name)).map (migrateRecord s) := by
    rw [List.filter_map]
    have hpred : ((fun m => m.name == (migrateRecord s r).name) ∘ migrateRecord s)
        = (fun m => m.name == r.name) := by
      funext m
      simp only [Function.comp_apply, migrateRecord_name]
    rw [hpred]
  have hsorted : sortByCreatedAt ((s.filter (fun m => m.name == r.name)).map
      (migrateRecord s)) =
      (sortByCreatedAt (s.filter (fun m => m.name == r.name))).map
        (migrateRecord s) :=
    sortByCreatedAt_map (migrateRecord s) (migrateRecord_created_at s) _
  have hfind : (sortByCreatedAt ((s.map (migrateRecord s)).filter
      (fun m => m.name == (migrateRecord s r).name))).findIdx?
        (fun m => m.id == (migrateRecord s r).id) =
      (sortByCreatedAt (s.filter (fun m => m.name == r.name))).findIdx?
        (fun m => m.id == r.id) := by
    rw [hgroup, hsorted, List.findIdx?_map]
    have hpred : ((fun m => m.id == (migrateRecord s r).id) ∘ migrateRecord s)
        = (fun m => m.id == r.id) := by
      funext m
      simp only [Function.comp_apply, migrateRecord_id]
    rw [hpred]
  have hlen2 : ((s.map (migrateRecord s)).filter
      (fun m => m.name == (migrateRecord s r).name)).length =
      (s.filter (fun m => m.name == r.name)).length := by
    rw [hgroup, List.length_map]
  by_cases hlen : (s.filter (fun m => m.name == r.name)).length > 1
  · rcases hidx : (sortByCreatedAt (s.filter (fun m => m.name == r.name))).findIdx?
        (fun m => m.id == r.id) with _ | i
    · have hur : migrateRecord s r = r := migrateRecord_of_large_none s r hlen hidx
      rw [hur] at hfind hlen2 ⊢
      exact migrateRecord_of_large_none (s.map (migrateRecord s)) r
        (by rw [hlen2]; exact hlen) (by rw [hfind]; exact hidx)
    · have hur : migrateRecord s r =
          { r with
            version := i + 1,
            is_latest := i + 1 == (sortByCreatedAt (s.filter (fun m => m.name == r.name))).length } :=
        migrateRecord_of_large_some s r i hlen hidx
      have hstep := migrateRecord_of_large_some (s.map (migrateRecord s))
        (migrateRecord s r) i (by rw [hlen2]; exact hlen)
        (by rw [hfind]; exact hidx)
      rw [hstep]
      have hslen : (sortByCreatedAt ((s.map (migrateRecord s)).filter
          (fun m => m.name == (migrateRecord s r).name))).length =
          (sortByCreatedAt (s.filter (fun m => m.name == r.name))).length := by
        rw [hgroup, hsorted, List.length_map]
      rw [hslen, hur]
  · have hur : migrateRecord s r = { r with is_latest := true } :=
      migrateRecord_of_small s r hlen
    have hstep := migrateRecord_of_small (s.map (migrateRecord s))
      (migrateRecord s r) (by rw [hlen2]; exact hlen)
    rw [hstep, hur]

/-- Running the reconciliation pass twice equals running it once. -/
theorem migrate_idempotent (s : Registry) :
    _migrate_existing_models (_migrate_existing_models s) =
      _migrate_existing_models s := by
  unfold _migrate_existing_models
  rw [List.map_map]
  refine List.map_congr_left ?_
  intro r _
  simp only [Function.comp_apply]
  exact migrateRecord_map_self s r

/-! ## Concrete fixtures used by counterexamples and witnesses -/

/-- A successful deserialization/inspection outcome: a regressor-style
artifact with no probability capability and no declared feature schema. -/
def okLoad : Except String LoadedInfo :=
  .ok { model_class := "M", has_predict_proba := false }

/-- Upload metadata for a fresh root named `m`. -/
def rootMetaM : ModelMetaCreate := { name := "m" }

/-- Upload metadata for an explicit new version of record `A`. -/
def childMetaB : ModelMetaCreate :=
  { name := "m", is_new_version := true, parent_model_id := some "A" }

/-- Upload metadata for an explicit new version of `A` under a different
name. -/
def childMetaX : ModelMetaCreate :=
  { name := "x", is_new_version := true, parent_model_id := some "A" }

/-- Upload metadata requesting a new version with no parent: the
name-resolved fallback branch. -/
def nameMetaC : ModelMetaCreate := { name := "m", is_new_version := true }

/-- Save a root `A`, then an explicit new version `B` of it. -/
def wops : List Op :=
  [.save "A" 0 rootMetaM true okLoad, .save "B" 1 childMetaB true okLoad]

/-- The state after `wops`: `A` at version 1 no longer latest, `B` at
version 2 latest. -/
def wA : ModelMeta :=
  { id := "A", name := "m", description := none,
    model_type := some .regressor, status := .deployed,
    file_path := some "A", feature_names := none,
    model_info := some (.info "M" false none), created_at := 0,
    updated_at := 1, version := 1, parent_model_id := none,
    is_latest := false }

/-- The version-2 record appended by the second save of `wops`. -/
def wB : ModelMeta :=
  { id := "B", name := "m", description := none,
    model_type := some .regressor, status := .deployed,
    file_path := some "B", feature_names := none,
    model_info := some (.info "M" false none), created_at := 1,
    updated_at := 1, version := 2, parent_model_id := some "A",
    is_latest := true }

/-- Save root `A`, save child `B`, then delete `B` (the current latest). -/
def c2ops : List Op := wops ++ [.del "B"]

/-- Save root `A` (name `m`), an explicit child `X` under name `x`, then a
name-resolved new version of `m`. -/
def c3ops : List Op :=
  [.save "A" 0 rootMetaM true okLoad, .save "X" 1 childMetaX true okLoad,
   .save "C" 2 nameMetaC true okLoad]

/-- A one-record registry whose single record is its own parent: a
parent-link cycle. -/
def cycReg : Registry := [{ id := "a", name := "m", parent_model_id := some "a" }]

/-- A registry holding one latest version-1 root `A`. -/
def s9 : Registry :=
  [{ id := "A", name := "m", created_at := 0, version := 1, is_latest := true }]

/-- The record of `s9` after the resolution phase of a failed versioned
save: flipped to `is_latest = false`. -/
def s9flipped : ModelMeta :=
  { id := "A", name := "m", created_at := 0, updated_at := 1, version := 1, is_latest := false }

/-! ## Claim C1 — deletion promotion -/

/-- C1 counterexample: in the registry `[wA, wB]` (family of root `A`, with
`B` the latest at version 2), `delete_model "B"` returns a registry whose
only member is `wA` unchanged — `is_latest` stays `false`, so the remaining
highest-version family member is NOT promoted as the claim states. -/
theorem C1_counterexample :
    delete_model [wA, wB] "B" = ([wA], true) ∧ wA.is_latest = false ∧
      wB.is_latest = true ∧ wB.parent_model_id = some "A" ∧
      wA.version = 1 ∧ wB.version = 2 := by
  refine ⟨?_, rfl, rfl, rfl, rfl, rfl⟩
  decide

/-- C1 amended: `delete_model` removes only the addressed record and leaves
every other record — in particular its `is_latest` flag — unchanged; no
promotion of any family member ever happens, whether the deleted record was
latest or not. -/
theorem C1_delete_leaves_others_unchanged (s : Registry) (model_id : String) :
    (∀ r, r ∈ (delete_model s model_id).1 → r ∈ s ∧ r.id ≠ model_id) ∧
    (∀ r, r ∈ s → r.id ≠ model_id → r ∈ (delete_model s model_id).1) := by
  unfold delete_model
  by_cases h : (get_model s model_id).isSome
  · rw [if_pos h]
    constructor
    · intro r hr
      have := List.mem_filter.mp hr
      exact ⟨this.1, by simpa using this.2⟩
    · intro r hr hne
      exact List.mem_filter.mpr ⟨hr, by simpa using hne⟩
  · rw [if_neg h]
    constructor
    · intro r hr
      refine ⟨hr, ?_⟩
      rcases hg : get_model s model_id with _ | q
      · exact get_model_eq_none s model_id hg r hr
      · exact absurd (by rw [hg]; rfl) h
    · intro r hr _
      exact hr

/-- C1 witness: the record `wA` (id ≠ "B") survives deleting "B" from
`[wA, wB]` untouched. -/
theorem C1_delete_leaves_others_unchanged_witness :
    wA ∈ (delete_model [wA, wB] "B").1 :=
  (C1_delete_leaves_others_unchanged [wA, wB] "B").2 wA (by decide) (by decide)

/-! ## Claim C4 — termination of the family walk -/

/-- C4 counterexample: on the cyclic registry `cycReg` the root-finding
loop of `_get_model_family` never exits, whatever the iteration budget:
there is no bound at the record count and no `CorruptLineage` failure. -/
theorem C4_counterexample : ¬ walkTerminates cycReg "a" := by
  have step : ∀ g, findRoot cycReg (g + 1) "a" = findRoot cycReg g "a" :=
    fun g => rfl
  have never : ∀ f, findRoot cycReg f "a" = none := by
    intro f
    induction f with
    | zero => rfl
    | succ g ih => rw [step g]; exact ih
  rintro ⟨f, hf⟩
  exact hf (never f)

/-- C4 amended: the walk terminates — within `s.length` iterations, one per
registry record — on every registry whose resolvable parent links point to
strictly earlier records (true of every state reachable through the API,
where a parent is always a pre-existing record); on a registry with a
parent-link cycle it loops forever, with no record-count bound and no
`CorruptLineage` condition in the code. -/
theorem C4_walk_terminates_on_acyclic (s : Registry) (h : ParentsEarlier s)
    (idStr : String) : findRoot s s.length idStr ≠ none :=
  findRoot_terminates s h idStr

/-- C4 witness: the walk terminates within 2 iterations on the two-record
registry `[wA, wB]` whose parent links are acyclic. -/
theorem C4_walk_terminates_on_acyclic_witness :
    findRoot [wA, wB] ([wA, wB] : Registry).length "B" ≠ none := by
  refine C4_walk_terminates_on_acyclic [wA, wB] ?_ "B"
  intro j r hj p hp i q hi hqid
  match j, hj with
  | 0, hj =>
    have hr : r = wA := by
      have h0 : wA = r := by simpa using hj
      exact h0.symm
    rw [hr] at hp
    cases hp
  | 1, hj =>
    have hr : r = wB := by
      have h0 : wB = r := by simpa [List.get?] using hj
      exact h0.symm
    have hpA : p = "A" := by
      rw [hr] at hp
      have : some "A" = some p := hp
      exact (Option.some_injective _ this).symm
    match i, hi with
    | 0, hi => exact Nat.zero_lt_one
    | 1, hi =>
      have hq : q = wB := by
        have h0 : wB = q := by simpa [List.get?] using hi
        exact h0.symm
      rw [hq, hpA] at hqid
      exact absurd hqid (by decide)
    | n + 2, hi => simp [List.get?] at hi
  | n + 2, hj => simp [List.get?] at hj

/-! ## Claim C8 — reconciliation idempotence -/

/-- C8: running the reconciliation pass (`_migrate_existing_models`) twice
in a row on any registry mapping yields the same mapping as running it
once. -/
theorem C8_reconcile_idempotent (s : Registry) :
    _migrate_existing_models (_migrate_existing_models s) =
      _migrate_existing_models s :=
  migrate_idempotent s

/-! ## Claim C2 — single-latest invariant -/

/-- C2 counterexample: the sequence save root `A`, save explicit child `B`,
delete `B` (all calls completing) leaves the registry `[wA]`: the family of
root `A` is non-empty yet has zero members with `is_latest = true`, because
`delete_model` performs no promotion. -/
theorem C2_counterexample :
    runOps c2ops = [wA] ∧ wA.is_latest = false ∧
      wA.parent_model_id = none ∧ rootAtId [wA] "A" = some "A" := by
  refine ⟨?_, rfl, rfl, ?_⟩ <;> decide

/-- C2 amended: for every sequence of `save_model` calls from the empty
registry in which every call's artifact write succeeds and every requested
new version names its parent explicitly (no deletes, no name-resolved
parents), after each call every non-empty lineage family — the records
sharing one root under the parent walk — has exactly one member with
`is_latest = true`.  (`delete_model` of a latest member, a failed write, and
the name-resolved branch can each break this, see the counterexample and
claims C3 and C9.) -/
theorem C2_single_latest_for_explicit_saves (ops : List Op)
    (hops : ∀ op ∈ ops, GoodSaveOp op) (hids : (saveIds ops).Nodup) :
    ∀ r ∈ runOps ops, (runOps ops).countP
      (fun x => (rootAtId (runOps ops) x.id == rootAtId (runOps ops) r.id) &&
        x.is_latest) = 1 :=
  (runOps_inv ops [] regInv_nil hops hids
    (fun x _ => by simp [regIds])).oneLatest

/-- C2 witness: after saving root `A` and explicit child `B`, the family of
`B` has exactly one latest member. -/
theorem C2_single_latest_for_explicit_saves_witness :
    (runOps wops).countP
      (fun x => (rootAtId (runOps wops) x.id == rootAtId (runOps wops) wB.id) &&
        x.is_latest) = 1 := by
  refine C2_single_latest_for_explicit_saves wops ?_ (by decide) wB (by decide)
  intro op hop
  rcases List.mem_cons.mp hop with h | h
  · rw [h]; exact ⟨rfl, by decide⟩
  · rcases List.mem_cons.mp h with h | h
    · rw [h]; exact ⟨rfl, by decide⟩
    · cases h

/-! ## Claim C3 — version monotonicity -/

/-- C3 counterexample: save root `A` (name `m`, version 1), save `X` as an
explicit new version of `A` under the different name `x` (version 2), then
save a name-resolved new version of `m`: the new record `C` gets parent `A`
and version 2 as well — two members of the family of root `A` share
version 2. -/
theorem C3_counterexample :
    (runOps c3ops).map (fun r => (r.id, r.version, r.parent_model_id)) =
      [("A", 1, none), ("X", 2, some "A"), ("C", 2, some "A")] ∧
    rootAtId (runOps c3ops) "X" = some "A" ∧
    rootAtId (runOps c3ops) "C" = some "A" := by
  refine ⟨?_, ?_, ?_⟩ <;> decide

/-- C3 amended: for every sequence of `save_model` calls from the empty
registry whose writes succeed and whose new-version requests name their
parents explicitly, within each lineage family the versions are strictly
increasing in creation order (hence pairwise distinct) and every root
record carries version 1.  When a child is saved under a different name
than its parent, a later name-resolved save can duplicate a version inside
the family, as the counterexample shows. -/
theorem C3_versions_monotone_for_explicit_saves (ops : List Op)
    (hops : ∀ op ∈ ops, GoodSaveOp op) (hids : (saveIds ops).Nodup) :
    (∀ i j : Nat, i < j → ∀ ri rj, (runOps ops).get? i = some ri →
      (runOps ops).get? j = some rj →
      rootAtId (runOps ops) ri.id = rootAtId (runOps ops) rj.id →
      ri.version < rj.version) ∧
    (∀ r ∈ runOps ops, r.parent_model_id = none → r.version = 1) :=
  ⟨(runOps_inv ops [] regInv_nil hops hids
      (fun x _ => by simp [regIds])).versionsMono,
   (runOps_inv ops [] regInv_nil hops hids
      (fun x _ => by simp [regIds])).rootOne⟩

/-- C3 witness: in the family built by `wops`, the root `A` (position 0,
version 1) precedes the child `B` (position 1, version 2) with a strictly
smaller version, and the root carries version 1. -/
theorem C3_versions_monotone_for_explicit_saves_witness :
    wA.version < wB.version ∧ wA.version = 1 := by
  have hgood : ∀ op ∈ wops, GoodSaveOp op := by
    intro op hop
    rcases List.mem_cons.mp hop with h | h
    · rw [h]; exact ⟨rfl, by decide⟩
    · rcases List.mem_cons.mp h with h | h
      · rw [h]; exact ⟨rfl, by decide⟩
      · cases h
  have h := C3_versions_monotone_for_explicit_saves wops hgood (by decide)
  exact ⟨h.1 0 1 Nat.zero_lt_one wA wB (by decide) (by decide) (by decide),
    h.2 wA (by decide) (by decide)⟩

/-! ## Claim C5 — feature alignment -/

/-- C5 counterexample: with `feature_names = ["a"]` and the input mapping
`{"a": null}`, the declared name IS a key of the mapping, yet preparation
fails with `Missing required features: ["a"]` — so "every declared name is
a key" does not suffice for success. -/
theorem C5_counterexample :
    _prepare_features (some ["a"]) [("a", PyVal.null)] = .error ["a"] ∧
      (List.lookup "a" [("a", PyVal.null)]).isSome = true := by
  exact ⟨rfl, rfl⟩

/-- C5 amended: for a record with non-empty declared `feature_names`
`[n1, …, nk]` and input mapping `m`: if every `ni` is a key of `m` with a
non-null value, preparation returns `[m(n1), …, m(nk)]` in declared order
(so the result depends only on the lookups of the declared names: extra
keys are ignored and the order of keys in `m` is irrelevant); and whenever
some declared name is absent from `m`, preparation fails with an error
listing exactly the declared names whose aligned value is null — which
includes every absent declared name, not just the first. -/
theorem C5_feature_alignment (names : List String)
    (m : List (String × PyVal)) (hne : names ≠ []) :
    ((∀ n ∈ names, ∃ v, m.lookup n = some v ∧ v ≠ PyVal.null) →
      _prepare_features (some names) m =
        .ok (names.map (fun n => (m.lookup n).getD PyVal.null))) ∧
    ((∃ n ∈ names, m.lookup n = none) →
      _prepare_features (some names) m =
        .error (names.filter
          (fun n => (m.lookup n).getD PyVal.null == PyVal.null)) ∧
      ∀ n ∈ names, m.lookup n = none →
        n ∈ names.filter
          (fun n => (m.lookup n).getD PyVal.null == PyVal.null)) := by
  have hempty : names.isEmpty = false := by
    rw [List.isEmpty_eq_false]
    exact hne
  constructor
  · intro hall
    have hmiss : names.filter
        (fun n => (m.lookup n).getD PyVal.null == PyVal.null) = [] := by
      rw [List.filter_eq_nil_iff]
      intro n hn
      obtain ⟨v, hv, hvne⟩ := hall n hn
      rw [hv]
      simpa using hvne
    simp only [_prepare_features, hempty, Bool.false_eq_true, if_false, hmiss]
    rfl
  · intro ⟨n0, hn0, habs⟩
    have hn0m : n0 ∈ names.filter
        (fun n => (m.lookup n).getD PyVal.null == PyVal.null) := by
      rw [List.mem_filter]
      exact ⟨hn0, by rw [habs]; rfl⟩
    have hmiss : (names.filter
        (fun n => (m.lookup n).getD PyVal.null == PyVal.null)).isEmpty = false := by
      rw [List.isEmpty_eq_false]
      exact List.ne_nil_of_mem hn0m
    refine ⟨?_, ?_⟩
    · simp only [_prepare_features, hempty, Bool.false_eq_true, if_false, hmiss]
    · intro n hn habsn
      rw [List.mem_filter]
      exact ⟨hn, by rw [habsn]; rfl⟩

/-- C5 witness, the spec's own example: `featureNames = ["a","b","c"]` with
input `{"b":2, "a":1, "c":3, "d":9}` yields the vector `[1,2,3]` in declared
order, and input `{"a":1}` fails listing both `"b"` and `"c"`. -/
theorem C5_feature_alignment_witness :
    _prepare_features (some ["a", "b", "c"])
      [("b", PyVal.int 2), ("a", PyVal.int 1), ("c", PyVal.int 3),
       ("d", PyVal.int 9)] =
      .ok [PyVal.int 1, PyVal.int 2, PyVal.int 3] ∧
    _prepare_features (some ["a", "b", "c"]) [("a", PyVal.int 1)] =
      .error ["b", "c"] := by
  constructor
  · have h := (C5_feature_alignment ["a", "b", "c"]
      [("b", PyVal.int 2), ("a", PyVal.int 1), ("c", PyVal.int 3),
       ("d", PyVal.int 9)] (by decide)).1 (by decide)
    rw [h]
    rfl
  · have h := ((C5_feature_alignment ["a", "b", "c"] [("a", PyVal.int 1)]
      (by decide)).2 ⟨"b", by decide, rfl⟩).1
    rw [h]
    rfl

/-! ## Claim C6 — deserialization failure absorbed into the record -/

/-- C6: when the artifact bytes are written successfully but inspection
(`joblib.load` and attribute probing) raises with message `e`, `save_model`
still returns normally with the new id: the registry gains exactly one
record, with status `error` and the failure text in `model_info`; the
exception is not propagated to the caller. -/
theorem C6_deserialization_error_absorbed (s : Registry) (newId : String)
    (now : Nat) (meta : ModelMetaCreate) (e : String) (s1 : Registry)
    (v : Nat) (p : Option String)
    (hres : resolveVersion s meta now = .ok s1 v p) :
    save_model s newId now meta true (.error e) =
      .ok (s1 ++ [errorRecord newId now meta e v p]) newId ∧
    (errorRecord newId now meta e v p).status = .error ∧
    (errorRecord newId now meta e v p).model_info = some (.errorInfo e) ∧
    (errorRecord newId now meta e v p).id = newId := by
  refine ⟨?_, rfl, rfl, rfl⟩
  simp only [save_model, hres]
  rfl

/-- C6 witness: uploading a fresh root whose inspection raises "boom" still
succeeds and stores an error-status record. -/
theorem C6_deserialization_error_absorbed_witness :
    save_model [] "A" 0 rootMetaM true (.error "boom") =
      .ok ([] ++ [errorRecord "A" 0 rootMetaM "boom" 1 none]) "A" ∧
    (errorRecord "A" 0 rootMetaM "boom" 1 none).status = .error ∧
    (errorRecord "A" 0 rootMetaM "boom" 1 none).model_info =
      some (.errorInfo "boom") ∧
    (errorRecord "A" 0 rootMetaM "boom" 1 none).id = "A" :=
  C6_deserialization_error_absorbed [] "A" 0 rootMetaM "boom" [] 1 none rfl

/-! ## Claim C7 — confidence bucketing -/

/-- C7: the confidence label is `"High"` for `p ≥ 0.8`, `"Medium"` for
`0.6 ≤ p < 0.8`, `"Low"` for `p < 0.6`, both boundaries falling in the
higher bucket; and when the loaded model exposes no `predict_proba`
capability, a successful prediction carries neither a probability nor a
confidence label. -/
theorem C7_confidence_bucketing :
    (∀ p : ℚ, 0.8 ≤ p → _get_confidence_level p = "High") ∧
    (∀ p : ℚ, 0.6 ≤ p → p < 0.8 → _get_confidence_level p = "Medium") ∧
    (∀ p : ℚ, p < 0.6 → _get_confidence_level p = "Low") ∧
    (∀ (fnames : Option (List String)) (model : LoadedModel)
      (feats : List (String × PyVal)) (resp : PredictionResponse),
      model.predict_proba = none → predictOne fnames model feats = .ok resp →
      resp.probability = none ∧ resp.confidence = none) := by
  refine ⟨?_, ?_, ?_, ?_⟩
  · intro p h
    unfold _get_confidence_level
    rw [if_pos h]
  · intro p h1 h2
    unfold _get_confidence_level
    rw [if_neg (not_le.mpr h2), if_pos h1]
  · intro p h
    unfold _get_confidence_level
    rw [if_neg (not_le.mpr (lt_trans h (by norm_num))),
      if_neg (not_le.mpr h)]
  · intro fnames model feats resp hpp hok
    rcases hprep : _prepare_features fnames feats with miss | X
    · simp only [predictOne, hprep] at hok
      exact Except.noConfusion hok
    · simp only [predictOne, hprep, hpp] at hok
      have h2 := Except.ok.inj hok
      rw [← h2]
      exact ⟨rfl, rfl⟩

/-- C7 witness: the boundary and interior points of the spec, plus a
probability-free model producing a response with no probability and no
label. -/
theorem C7_confidence_bucketing_witness :
    _get_confidence_level 0.8 = "High" ∧
    _get_confidence_level 0.65 = "Medium" ∧
    _get_confidence_level 0.6 = "Medium" ∧
    _get_confidence_level 0.59 = "Low" ∧
    (({ prediction := PyVal.int 0, probability := none, confidence := none } :
        PredictionResponse).probability = none ∧
      ({ prediction := PyVal.int 0, probability := none, confidence := none } :
        PredictionResponse).confidence = none) := by
  refine ⟨C7_confidence_bucketing.1 0.8 le_rfl,
    C7_confidence_bucketing.2.1 0.65 (by norm_num) (by norm_num),
    C7_confidence_bucketing.2.1 0.6 le_rfl (by norm_num),
    C7_confidence_bucketing.2.2.1 0.59 (by norm_num),
    C7_confidence_bucketing.2.2.2 none
      ⟨fun _ => PyVal.int 0, none⟩ [("a", PyVal.int 1)]
      { prediction := PyVal.int 0, probability := none, confidence := none }
      rfl rfl⟩

/-! ## Claim C9 — write failure: raise, cleanup, no rollback of flips -/

/-- Reduction of the name-resolved branch. -/
theorem resolveVersionByName_eq (s : Registry) (meta : ModelMetaCreate)
    (now : Nat) :
    resolveVersionByName s meta now =
      (match maxByVersion (s.filter (fun m => m.name == meta.name)) with
       | none => .ok s 1 none
       | some latest =>
         .ok (s.map (flipLatestNamed meta.name now)) (latest.version + 1)
           (some latest.id)) := by
  unfold resolveVersionByName
  rfl

/-- The name-resolved branch never adds or removes records. -/
theorem resolveVersionByName_ids (s : Registry) (meta : ModelMetaCreate)
    (now : Nat) (s1 : Registry) (v : Nat) (p : Option String)
    (hres : resolveVersionByName s meta now = .ok s1 v p) :
    regIds s1 = regIds s := by
  rw [resolveVersionByName_eq s meta now] at hres
  rcases hmax : maxByVersion (s.filter (fun m => m.name == meta.name))
    with _ | latest
  · rw [hmax] at hres
    cases hres
    rfl
  · rw [hmax] at hres
    cases hres
    exact regIds_map s _ (fun r => flipLatestNamed_id meta.name now r)

/-- Reduction of `resolveVersion` when no new version is requested. -/
theorem resolveVersion_fresh_eq (s : Registry) (meta : ModelMetaCreate)
    (now : Nat) (hnv : meta.is_new_version = false) :
    resolveVersion s meta now = .ok s 1 none := by
  simp only [resolveVersion, hnv]

/-- The version-resolution phase never adds or removes records: the raised
state after a failed write has exactly the ids of the original registry. -/
theorem resolveVersion_ids (s : Registry) (meta : ModelMetaCreate)
    (now : Nat) (s1 : Registry) (v : Nat) (p : Option String)
    (hres : resolveVersion s meta now = .ok s1 v p) : regIds s1 = regIds s := by
  cases hnv : meta.is_new_version with
  | false =>
    rw [resolveVersion_fresh_eq s meta now hnv] at hres
    cases hres
    rfl
  | true =>
    rcases hpm : meta.parent_model_id with _ | pid
    · rw [resolveVersion_none_eq s meta now hnv hpm] at hres
      exact resolveVersionByName_ids s meta now s1 v p hres
    · by_cases hpe : pid = ""
      · rw [hpe] at hpm
        rw [resolveVersion_empty_eq s meta now hnv hpm] at hres
        exact resolveVersionByName_ids s meta now s1 v p hres
      · rw [resolveVersion_parent_eq s meta now pid hnv hpm hpe] at hres
        rcases hg : get_model s pid with _ | q
        · rw [hg] at hres
          cases hres
        · rw [hg] at hres
          rcases hf : _get_model_family s s.length pid with _ | F
          · rw [hf] at hres
            cases hres
          · rw [hf] at hres
            cases hres
            exact regIds_map s _ (fun r => flipLatest_id _ now r)

/-- C9: when the artifact write fails during `save_model`, the call raises
(the original exception propagates), the partially written artifact file is
removed from disk, and no record is added — the raised state has exactly
the original ids; but the `is_latest = false` flips the resolution phase
already applied to the family are kept, so (concretely) a failed versioned
save can leave the family with no latest member. -/
theorem C9_write_failure_keeps_flips :
    (∀ (s : Registry) (newId : String) (now : Nat) (meta : ModelMetaCreate)
      (lr : Except String LoadedInfo) (s1 : Registry) (v : Nat)
      (p : Option String), resolveVersion s meta now = .ok s1 v p →
      save_model s newId now meta false lr =
        .raiseErr s1 "artifact write failed" ∧ regIds s1 = regIds s) ∧
    (∀ (files : List String) (path : String),
      path ∉ writeArtifactAttempt files path false) ∧
    (∃ s1f : Registry, save_model s9 "B" 1 childMetaB false okLoad =
      .raiseErr s1f "artifact write failed" ∧ s1f ≠ [] ∧
      s1f.countP (fun r => r.is_latest) = 0) := by
  refine ⟨?_, ?_, ?_⟩
  · intro s newId now meta lr s1 v p hres
    constructor
    · simp only [save_model, hres]
      rfl
    · exact resolveVersion_ids s meta now s1 v p hres
  · intro files path h
    unfold writeArtifactAttempt at h
    simp at h
  · exact ⟨[s9flipped], by decide, by decide, by decide⟩

/-- C9 witness: a failed write of a fresh root raises with the registry
unchanged. -/
theorem C9_write_failure_keeps_flips_witness :
    save_model [] "A" 0 rootMetaM false okLoad =
      .raiseErr [] "artifact write failed" ∧
    ("p" ∉ writeArtifactAttempt ["f"] "p" false) := by
  refine ⟨(C9_write_failure_keeps_flips.1 [] "A" 0 rootMetaM okLoad [] 1
    none rfl).1, C9_write_failure_keeps_flips.2.1 ["f"] "p"⟩

/-! ## Claim C10 — null values in the input are treated as missing -/

/-- C10: with non-empty declared `feature_names`, an input mapping that
supplies a declared name with a null value is rejected with a
missing-features error that lists that name, even though the name is
present as a key of the mapping: missing-ness is decided by null-detection
on the aligned vector, not by key membership. -/
theorem C10_null_value_rejected (names : List String)
    (m : List (String × PyVal)) (n : String) (hne : names ≠ [])
    (hn : n ∈ names) (hv : m.lookup n = some PyVal.null) :
    ∃ missing, _prepare_features (some names) m = .error missing ∧
      n ∈ missing ∧ (m.lookup n).isSome = true := by
  have hempty : names.isEmpty = false := by
    rw [List.isEmpty_eq_false]
    exact hne
  have hnm : n ∈ names.filter
      (fun k => (m.lookup k).getD PyVal.null == PyVal.null) := by
    rw [List.mem_filter]
    exact ⟨hn, by rw [hv]; rfl⟩
  have hmiss : (names.filter
      (fun k => (m.lookup k).getD PyVal.null == PyVal.null)).isEmpty = false := by
    rw [List.isEmpty_eq_false]
    exact List.ne_nil_of_mem hnm
  refine ⟨_, ?_, hnm, by rw [hv]; rfl⟩
  simp only [_prepare_features, hempty, Bool.false_eq_true, if_false, hmiss]

/-- C10 witness: `feature_names = ["a"]` with input `{"a": null}` fails
listing `"a"`, though `"a"` is a key of the input. -/
theorem C10_null_value_rejected_witness :
    ∃ missing, _prepare_features (some ["a"]) [("a", PyVal.null)] =
      .error missing ∧ "a" ∈ missing ∧
      (List.lookup "a" [("a", PyVal.null)]).isSome = true :=
  C10_null_value_rejected ["a"] [("a", PyVal.null)] "a" (by decide)
    (by decide) (by decide)

end PlexeCore
